import Mathlib

/-!
# Verification of `cmd/integration/commands/state_stages.go`

A shallow embedding of the consistency checkers (`checkMinedBlock`,
`checkChangeSet`, `checkHistory`, `checkChanges`) and of the forward/unwind
stepper (`syncBySmallSteps`) of the `state_stages` integration command.

Conventions of the embedding:

* a Go `[]byte` is a `List Nat`; a nil slice and an empty slice are both `[]`,
  which is all that `bytes.Equal` and `bytes.Compare` can observe;
* a Go `uint64` is a `Nat` below `2 ^ 64`; additions and subtractions that the
  source performs on `uint64` are reduced modulo `2 ^ 64` explicitly;
* a Go call that can return an `error` or panic returns a `Res`;
* text written with `fmt.Printf` is collected as a list of printed lines.
-/

namespace StateStages

/-! ## Machine integers, byte slices, results -/

/-- Go `[]byte`. -/
abbrev Bytes := List Nat

/-- A 32-byte `common.Hash`, compared with `!=` in the source. -/
abbrev Hash := List Nat

/-- Reduction of a natural number to the `uint64` range. -/
def u64 (n : Nat) : Nat := n % 2 ^ 64

/-- Go `a - b` on `uint64` operands: subtraction modulo `2 ^ 64`. -/
def subU64 (a b : Nat) : Nat := (a % 2 ^ 64 + (2 ^ 64 - b % 2 ^ 64)) % 2 ^ 64

/-- Outcome of a Go call: normal return, returned `error`, or run-time panic. -/
inductive Res (α : Type) where
  | ok (a : α)
  | error (msg : String)
  | panic (msg : String)
  deriving DecidableEq, Repr

/-- Go `bytes.Equal`. -/
def bytesEqual (a b : Bytes) : Bool := a == b

/-- Go `bytes.Compare`: lexicographic comparison, result `-1`, `0` or `1`. -/
def bytesCompare : Bytes → Bytes → Int
  | [], [] => 0
  | [], _ :: _ => -1
  | _ :: _, [] => 1
  | a :: as, b :: bs => if a < b then -1 else if b < a then 1 else bytesCompare as bs

/-- Two lower-case hexadecimal digits of one byte (the verb `%x` on a byte). -/
def hexByte (b : Nat) : String :=
  String.mk [Nat.digitChar (b / 16 % 16), Nat.digitChar (b % 16)]

/-- The verb `%x` applied to a byte slice. -/
def hexBytes (bs : Bytes) : String := String.join (bs.map hexByte)

/-! ## `checkMinedBlock` -/

/-- The fields of `types.Header` that `checkMinedBlock` and the mining step read. -/
structure Header where
  ParentHash : Hash
  UncleHash : Hash
  Coinbase : Bytes
  Root : Hash
  TxHash : Hash
  ReceiptHash : Hash
  Number : Nat
  GasUsed : Nat
  Extra : Bytes
  deriving DecidableEq, Repr

/-- A `types.Block`, reduced to its header. -/
structure Block where
  header : Header
  deriving DecidableEq, Repr

/-- Method `Block.Header()`. -/
def Block.Header (b : Block) : Header := b.header

/-- Method `Block.NumberU64()`: the header number as a `uint64`. -/
def Block.NumberU64 (b : Block) : Nat := u64 b.header.Number

/-- The part of `params.ChainConfig` used here. The method `IsByzantium` is
declared in package `params`, outside this file, and is taken as a parameter. -/
structure ChainConfig where
  IsByzantium : Nat → Bool

/-- Function `checkMinedBlock` (lines 401-414): panics with
"blocks are not same" when the two headers differ on one of the compared
fields, returns normally otherwise. -/
def checkMinedBlock (b1 b2 : Block) (chainConfig : ChainConfig) : Res Unit :=
  let h1 := b1.Header
  let h2 := b2.Header
  if h1.Root != h2.Root ||
      (chainConfig.IsByzantium b1.NumberU64 && h1.ReceiptHash != h2.ReceiptHash) ||
      h1.TxHash != h2.TxHash ||
      h1.ParentHash != h2.ParentHash ||
      h1.UncleHash != h2.UncleHash ||
      h1.GasUsed != h2.GasUsed ||
      !bytesEqual h1.Extra h2.Extra then
    Res.panic "blocks are not same"
  else
    Res.ok ()

/-! ## Change-sets and the store -/

/-- A `changeset.Change`: a key and the value it had before the block. -/
structure Change where
  Key : Bytes
  Value : Bytes
  deriving DecidableEq, Repr

/-- A `changeset.ChangeSet`. -/
structure ChangeSet where
  Changes : List Change
  deriving DecidableEq, Repr

/-- Function `changeset.NewChangeSet`: the empty change-set. -/
def NewChangeSet : ChangeSet := ⟨[]⟩

/-- Method `ChangeSet.Len`. -/
def ChangeSet.Len (s : ChangeSet) : Nat := s.Changes.length

/-- Modelled from the spec: the `sort.Interface` methods of
`changeset.ChangeSet` (package `common/changeset`) are not part of this file.
The specification orders change-set entries "first by key, with ties broken by
insertion order": a stable sort on the key bytes. -/
def sortChangeSet (s : ChangeSet) : ChangeSet :=
  ⟨s.Changes.insertionSort (fun a b => bytesCompare a.Key b.Key ≤ 0)⟩

/-- One persisted change-set record as the walker receives it: the block
number, key and value decoded from the database format. -/
structure CSEntry where
  blockN : Nat
  k : Bytes
  v : Bytes
  deriving DecidableEq, Repr

/-- The read transaction `ethdb.Tx` as far as this file uses it: per bucket the
persisted change-set records in cursor (key) order, and the history-index
query `bitmapdb.Get64 tx bucket key from to`, which lives in package
`ethdb/bitmapdb` and is taken as a parameter; it returns a set of block
numbers or a store error. -/
structure Tx where
  changeSets : String → List CSEntry
  Get64 : String → Bytes → Nat → Nat → Except String (List Nat)

/-- Constant `dbutils.AccountChangeSetBucket`. -/
def AccountChangeSetBucket : String := "AccountChangeSet"

/-- Constant `dbutils.StorageChangeSetBucket`. -/
def StorageChangeSetBucket : String := "StorageChangeSet"

/-- Modelled from the spec: the records `changeset.Walk` visits. `Walk`
(package `common/changeset`) is not part of this file; its start key is the
8-byte big-endian block number and `fixedbits` says how many leading bits of a
record key must agree with it. The change-set buckets "support ordered range
scan from a starting block": with `fixedbits = 64` these are the records of
exactly that block, with `fixedbits = 0` all records at or above it. -/
def walked (db : Tx) (bucket : String) (startBlock fixedbits : Nat) : List CSEntry :=
  (db.changeSets bucket).filter fun e =>
    decide (startBlock ≤ e.blockN) &&
      (fixedbits == 0 ||
        decide (e.blockN / 2 ^ (64 - fixedbits) = startBlock / 2 ^ (64 - fixedbits)))

/-- The loop of `Walk`: the walker is called on each record in turn, carrying
the variables it closes over in `σ`; a returned error (or a panic) ends the
walk with that outcome, and `false` ends it normally. -/
def walkLoop {σ : Type} (walker : σ → CSEntry → σ × Res Bool) : σ → List CSEntry → σ × Res Unit
  | s, [] => (s, Res.ok ())
  | s, e :: es =>
    match walker s e with
    | (s1, Res.ok true) => walkLoop walker s1 es
    | (s1, Res.ok false) => (s1, Res.ok ())
    | (s1, Res.error m) => (s1, Res.error m)
    | (s1, Res.panic m) => (s1, Res.panic m)

/-- Modelled from the spec: `changeset.Walk db bucket startkey fixedbits walker`
over the records selected by `walked`. -/
def Walk {σ : Type} (db : Tx) (bucket : String) (startBlock fixedbits : Nat)
    (walker : σ → CSEntry → σ × Res Bool) (s : σ) : σ × Res Unit :=
  walkLoop walker s (walked db bucket startBlock fixedbits)

/-! ## `checkChangeSet` -/

/-- The variables the walker closure of `checkChangeSet` updates: the index `i`
and the lines printed so far. -/
structure WalkVars where
  i : Nat
  out : List String
  deriving DecidableEq, Repr

/-- The walker closure of `checkChangeSet` (lines 536-549 and 562-575; the two
differ in the word `domain` of the first printed line). The indexing
`expected.Changes[i]` panics when `i` is not below the length. -/
def changeSetWalker (domain : String) (blockNum : Nat) (expected : ChangeSet)
    (s : WalkVars) (e : CSEntry) : WalkVars × Res Bool :=
  match expected.Changes[s.i]? with
  | none =>
    (s, Res.panic ("runtime error: index out of range [" ++ toString s.i ++
      "] with length " ++ toString expected.Changes.length))
  | some c =>
    if bytesEqual c.Key e.k && bytesEqual c.Value e.v then
      (⟨s.i + 1, s.out⟩, Res.ok true)
    else
      (⟨s.i + 1, s.out ++
        ["Unexpected " ++ domain ++ " changes in block " ++ toString blockNum,
         "In the database: ======================",
         "0x" ++ hexBytes e.k ++ ": " ++ hexBytes e.v,
         "Expected: ==========================",
         "0x" ++ hexBytes c.Key ++ " " ++ hexBytes c.Value]⟩,
       Res.error "check change set failed")

/-- What a call of `checkChangeSet` leaves behind: the printed lines, the
outcome, and the two expected change-sets as the caller sees them afterwards
(`sort.Sort` sorts them in place). -/
structure CheckResult where
  out : List String
  res : Res Unit
  account : ChangeSet
  storage : Option ChangeSet
  deriving DecidableEq, Repr

/-- Function `checkChangeSet` (lines 533-584). -/
def checkChangeSet (db : Tx) (blockNum : Nat) (expectedAccountChanges : ChangeSet)
    (expectedStorageChanges : Option ChangeSet) : CheckResult :=
  let acc := sortChangeSet expectedAccountChanges
  match Walk db AccountChangeSetBucket blockNum (8 * 8)
      (changeSetWalker "account" blockNum acc) ⟨0, []⟩ with
  | (s, Res.error m) => ⟨s.out, Res.error m, acc, expectedStorageChanges⟩
  | (s, Res.panic m) => ⟨s.out, Res.panic m, acc, expectedStorageChanges⟩
  | (s, Res.ok ()) =>
    if acc.Len ≠ s.i then
      ⟨s.out, Res.error "db has less changets", acc, expectedStorageChanges⟩
    else
      let sto := sortChangeSet (expectedStorageChanges.getD NewChangeSet)
      let after := expectedStorageChanges.map sortChangeSet
      match Walk db StorageChangeSetBucket blockNum (8 * 8)
          (changeSetWalker "storage" blockNum sto) ⟨0, s.out⟩ with
      | (t, Res.error m) => ⟨t.out, Res.error m, acc, after⟩
      | (t, Res.panic m) => ⟨t.out, Res.panic m, acc, after⟩
      | (t, Res.ok ()) =>
        if sto.Len ≠ t.i then
          ⟨t.out, Res.error "db has less changets", acc, after⟩
        else
          ⟨t.out, Res.ok (), acc, after⟩

/-- The key and value of a persisted record, as a `Change`. -/
def CSEntry.toChange (e : CSEntry) : Change := ⟨e.k, e.v⟩

/-! ## `checkHistory` -/

/-- Helpers of other packages that `checkHistory` calls and that are not part
of this file, taken as parameters: `changeset.Mapper[bucket].IndexBucket` and
`dbutils.CompositeKeyWithoutIncarnation`. -/
structure Helpers where
  IndexBucket : String → String
  CompositeKeyWithoutIncarnation : Bytes → Bytes

/-- The message of the error `checkHistory` builds with
`fmt.Errorf("checkHistory failed: bucket=%s,block=%d,addr=%x", ...)`. -/
def historyMsg (changeSetBucket : String) (blockN : Nat) (k : Bytes) : String :=
  "checkHistory failed: bucket=" ++ changeSetBucket ++ ",block=" ++ toString blockN ++
    ",addr=" ++ hexBytes k

/-- Lower bound of the history query (lines 591-594): `blockN - 1`, and `0`
for block `0`. -/
def historyFrom (blockN : Nat) : Nat := if blockN > 0 then blockN - 1 else blockN

/-- Upper bound of the history query (line 595): `blockN + 1` on `uint64`. -/
def historyTo (blockN : Nat) : Nat := u64 (blockN + 1)

/-- The walker closure of `checkHistory` (lines 589-603); it closes over no
variable it updates. -/
def historyWalker (hp : Helpers) (tx : Tx) (changeSetBucket : String)
    (s : Unit) (e : CSEntry) : Unit × Res Bool :=
  let k := hp.CompositeKeyWithoutIncarnation e.k
  match tx.Get64 (hp.IndexBucket changeSetBucket) k (historyFrom e.blockN) (historyTo e.blockN) with
  | Except.error innerErr => (s, Res.error innerErr)
  | Except.ok bm =>
    if !bm.contains e.blockN then
      (s, Res.error (historyMsg changeSetBucket e.blockN k))
    else
      (s, Res.ok true)

/-- Function `checkHistory` (lines 586-608). -/
def checkHistory (hp : Helpers) (tx : Tx) (changeSetBucket : String) (blockNum : Nat) : Res Unit :=
  (Walk tx changeSetBucket blockNum 0 (historyWalker hp tx changeSetBucket) ()).2

/-! ## `checkChanges` -/

/-- A Go `map[uint64]*changeset.ChangeSet`, listed in the order in which the
`range` statement happens to produce its entries. -/
abbrev ShadowMap := List (Nat × ChangeSet)

/-- Go `delete(m, blockN)`. -/
def mapDelete (m : ShadowMap) (blockN : Nat) : ShadowMap := m.filter fun p => p.1 != blockN

/-- Go `m[blockN]`; `none` is the nil pointer of an absent key. -/
def mapGet (m : ShadowMap) (blockN : Nat) : Option ChangeSet := m.lookup blockN

/-- The change-set that the pointer stored under `blockN` refers to is replaced
(the effect of the in-place `sort.Sort` seen through the map). -/
def mapRefresh (m : ShadowMap) (blockN : Nat) (cs : Option ChangeSet) : ShadowMap :=
  match cs with
  | none => m
  | some c => m.map fun p => if p.1 == blockN then (p.1, c) else p

/-- The checks `checkChanges` calls, for the record of what it ran. -/
inductive Call where
  | changeSet (blockN : Nat)
  | history (bucket : String) (fromBlock : Nat)
  deriving DecidableEq, Repr

/-- The two shadow maps, the printed lines and the record of checks run. -/
structure ChangesState where
  account : ShadowMap
  storage : ShadowMap
  out : List String
  calls : List Call
  deriving DecidableEq, Repr

/-- The `range` loop of `checkChanges` (lines 381-390) over the entries of the
expected account map. Only the entry being visited is ever deleted, so every
entry present at the start is visited once, with the value stored under it. -/
def rangeLoop (tx : Tx) (checkHistoryFrom : Nat) :
    List (Nat × ChangeSet) → ChangesState → ChangesState × Res Unit
  | [], st => (st, Res.ok ())
  | (blockN, cs) :: rest, st =>
    if blockN ≤ checkHistoryFrom then
      rangeLoop tx checkHistoryFrom rest st
    else
      let r := checkChangeSet tx blockN cs (mapGet st.storage blockN)
      let st1 : ChangesState :=
        ⟨st.account, st.storage, st.out ++ r.out, st.calls ++ [Call.changeSet blockN]⟩
      match r.res with
      | Res.ok () =>
        rangeLoop tx checkHistoryFrom rest
          ⟨mapDelete st1.account blockN, mapDelete st1.storage blockN, st1.out, st1.calls⟩
      | Res.error m =>
        (⟨mapRefresh st1.account blockN (some r.account), mapRefresh st1.storage blockN r.storage,
          st1.out, st1.calls⟩, Res.error m)
      | Res.panic m =>
        (⟨mapRefresh st1.account blockN (some r.account), mapRefresh st1.storage blockN r.storage,
          st1.out, st1.calls⟩, Res.panic m)

/-- Function `checkChanges` (lines 376-399): the final state of the two maps,
the checks it ran, and its outcome. -/
def checkChanges (hp : Helpers) (expectedAccountChanges : ShadowMap) (tx : Tx)
    (expectedStorageChanges : ShadowMap) (execAtBlock prunedTo : Nat) : ChangesState × Res Unit :=
  let checkHistoryFrom := if prunedTo > execAtBlock then prunedTo else execAtBlock
  match rangeLoop tx checkHistoryFrom expectedAccountChanges
      ⟨expectedAccountChanges, expectedStorageChanges, [], []⟩ with
  | (st, Res.error m) => (st, Res.error m)
  | (st, Res.panic m) => (st, Res.panic m)
  | (st, Res.ok ()) =>
    let st1 : ChangesState :=
      ⟨st.account, st.storage, st.out, st.calls ++ [Call.history AccountChangeSetBucket checkHistoryFrom]⟩
    match checkHistory hp tx AccountChangeSetBucket checkHistoryFrom with
    | Res.error m => (st1, Res.error m)
    | Res.panic m => (st1, Res.panic m)
    | Res.ok () =>
      let st2 : ChangesState :=
        ⟨st.account, st.storage, st.out,
          st1.calls ++ [Call.history StorageChangeSetBucket checkHistoryFrom]⟩
      (st2, checkHistory hp tx StorageChangeSetBucket checkHistoryFrom)

/-! ## `syncBySmallSteps` -/

/-- The package-level flag variables `block`, `unwindEvery` and `unwind`
(all `uint64`) as they stand when `syncBySmallSteps` is entered. -/
structure Flags where
  block : Nat
  unwindEvery : Nat
  unwind : Nat
  deriving DecidableEq, Repr

/-- The collaborators of the stepper that live outside this file, indexed by
the number of the loop iteration in which they are called:

* `start`: lines 142-154 (`newSync`, the first `db.BeginRw`, the batch size);
* `ctxDone n`: whether `ctx.Done()` is ready at the top of the iteration;
* `reopen n`: the error, if any, of `tx.Commit` / `db.BeginRw` at lines 243-250;
* `forward n progress execToBlock`: lines 273-297, running the stages with the
  execution stage bounded by `execToBlock`, the integrity checks and the
  commit; the new Execution progress, or the error returned;
* `mining n execAtBlock`: lines 305-353, reading the next block and, when mining
  is enabled, producing a candidate and comparing it with `checkMinedBlock`;
* `commitUnwind n`: the error, if any, of the commit at lines 363-370. -/
structure Env where
  start : Res Unit
  ctxDone : Nat → Bool
  reopen : Nat → Option String
  forward : Nat → Nat → Nat → Except String Nat
  mining : Nat → Nat → Res Unit
  commitUnwind : Nat → Option String

/-- Line 198: `onlyOneUnwind := block == 0 && unwindEvery == 0 && unwind > 0`. -/
def onlyOneUnwind (f : Flags) : Bool :=
  f.block == 0 && f.unwindEvery == 0 && decide (f.unwind > 0)

/-- Line 199: `backward := unwindEvery < unwind`. -/
def backward (f : Flags) : Bool := decide (f.unwindEvery < f.unwind)

/-- Lines 197-206: the stop target `stopAt`. -/
def stopAt (f : Flags) (senderAtBlock execProgress : Nat) : Nat :=
  if onlyOneUnwind f then subU64 execProgress f.unwind
  else if decide (f.block > 0) && decide (f.block < senderAtBlock) then f.block
  else if backward f then 1
  else senderAtBlock

/-- Line 236: the loop condition. -/
def loopCond (bw : Bool) (execAtBlock stop : Nat) : Bool :=
  (!bw && decide (execAtBlock < stop)) || (bw && decide (execAtBlock > stop))

/-- Lines 254-271: the forward target of one iteration. `none` is the `break`
of line 259; otherwise the pair of `execToBlock` and the value of the variable
`unwind` after the clamping (line 269 resets it to `0`). -/
def execTarget (block unwindEvery unwind execAtBlock stop : Nat) (bw : Bool) :
    Option (Nat × Nat) :=
  let unclamped : Option Nat :=
    if unwindEvery > 0 ∨ unwind > 0 then
      if u64 (execAtBlock + unwindEvery) > unwind then
        some (subU64 (u64 (execAtBlock + unwindEvery)) unwind)
      else
        none
    else
      some block
  match unclamped with
  | none => none
  | some execToBlock =>
    if bw then
      if execToBlock < stop then some (stop, unwind) else some (execToBlock, unwind)
    else
      if execToBlock > stop then some (u64 (stop + 1), 0) else some (execToBlock, unwind)

/-- Modelled from the spec: `stateStages.UnwindTo` (package `eth/stagedsync`)
is not part of this file. The specification rolls the progress of a stage back
to the target, and "a stage whose progress is already ≤ targetBlock is
skipped". -/
def UnwindTo (progress targetBlock : Nat) : Nat :=
  if progress ≤ targetBlock then progress else targetBlock

/-- The variables of the loop: the number of iterations completed, the local
`execAtBlock`, the package variable `unwind`, the persisted progress of the
Execution stage, and the record of the forward targets handed to the execution
stage and of the unwind points passed to `UnwindTo`, oldest first. -/
structure LoopState where
  n : Nat
  execAtBlock : Nat
  unwind : Nat
  progress : Nat
  targets : List Nat
  unwinds : List Nat
  deriving DecidableEq, Repr

/-- How one pass through the loop body ends: at the bottom of the body or at a
`continue` (`next`), or by leaving the loop with a `break` or `return` (`exit`,
with the value the function then returns). -/
inductive Step where
  | next (s : LoopState)
  | exit (s : LoopState) (r : Res Unit)
  deriving DecidableEq, Repr

/-- The loop body of `syncBySmallSteps` (lines 237-370). -/
def iteration (env : Env) (f : Flags) (bw : Bool) (stop : Nat) (s : LoopState) : Step :=
  if env.ctxDone s.n then Step.exit s (Res.ok ())
  else
    match env.reopen s.n with
    | some err => Step.exit s (Res.error err)
    | none =>
      let execAtBlock := s.progress
      match execTarget f.block f.unwindEvery s.unwind execAtBlock stop bw with
      | none => Step.exit ⟨s.n, execAtBlock, s.unwind, s.progress, s.targets, s.unwinds⟩ (Res.ok ())
      | some (execToBlock, unwind) =>
        let targets := s.targets ++ [execToBlock]
        match env.forward s.n s.progress execToBlock with
        | Except.error err =>
          Step.exit ⟨s.n, execAtBlock, unwind, s.progress, targets, s.unwinds⟩ (Res.error err)
        | Except.ok progress =>
          let s1 : LoopState := ⟨s.n, progress, unwind, progress, targets, s.unwinds⟩
          if progress = stop then Step.exit s1 (Res.ok ())
          else
            match env.mining s.n progress with
            | Res.error err => Step.exit s1 (Res.error err)
            | Res.panic msg => Step.exit s1 (Res.panic msg)
            | Res.ok () =>
              if unwind = 0 then
                Step.next ⟨s.n + 1, progress, unwind, progress, targets, s.unwinds⟩
              else
                let unwindPoint := subU64 progress unwind
                let s2 : LoopState :=
                  ⟨s.n + 1, progress, unwind, UnwindTo progress unwindPoint, targets,
                    s.unwinds ++ [unwindPoint]⟩
                match env.commitUnwind s.n with
                | some err => Step.exit s2 (Res.error err)
                | none => Step.next s2

/-- How a run of the loop ends: the function returned, or the iterations
allowed to the model were used up before it did. -/
inductive Outcome where
  | returned (s : LoopState) (r : Res Unit)
  | running (s : LoopState)
  deriving DecidableEq, Repr

/-- The `for` loop of lines 236-371, followed for at most `fuel` iterations. -/
def syncLoop (env : Env) (f : Flags) (bw : Bool) (stop : Nat) : Nat → LoopState → Outcome
  | 0, s => Outcome.running s
  | fuel + 1, s =>
    if loopCond bw s.execAtBlock stop then
      match iteration env f bw stop s with
      | Step.next s1 => syncLoop env f bw stop fuel s1
      | Step.exit s1 r => Outcome.returned s1 r
    else
      Outcome.returned s (Res.ok ())

/-- Function `syncBySmallSteps` (lines 141-374), started with the Senders stage
at `senderAtBlock` and the Execution stage at `execProgress`. -/
def syncBySmallSteps (env : Env) (f : Flags) (senderAtBlock execProgress fuel : Nat) : Outcome :=
  let s0 : LoopState := ⟨0, execProgress, f.unwind, execProgress, [], []⟩
  match env.start with
  | Res.error err => Outcome.returned s0 (Res.error err)
  | Res.panic msg => Outcome.returned s0 (Res.panic msg)
  | Res.ok () =>
    syncLoop env f (backward f) (stopAt f senderAtBlock execProgress) fuel s0


/-! ## Notions used to state the properties -/

/-- The persisted change-set records of one bucket for one block, in cursor
(key) order. -/
def persisted (db : Tx) (bucket : String) (blockNum : Nat) : List CSEntry :=
  (db.changeSets bucket).filter fun e => e.blockN == blockNum

/-- The history index answers the query of a record with a set holding its block. -/
def historyGood (hp : Helpers) (tx : Tx) (changeSetBucket : String) (e : CSEntry) : Prop :=
  ∃ bm, tx.Get64 (hp.IndexBucket changeSetBucket) (hp.CompositeKeyWithoutIncarnation e.k)
      (historyFrom e.blockN) (historyTo e.blockN) = Except.ok bm ∧ e.blockN ∈ bm

/-- The message of the error `checkHistory` returns when the walk stops at
record `e`: the store error of the query, or the report of the missing block. -/
def historyFailure (hp : Helpers) (tx : Tx) (changeSetBucket : String) (e : CSEntry) : String :=
  match tx.Get64 (hp.IndexBucket changeSetBucket) (hp.CompositeKeyWithoutIncarnation e.k)
      (historyFrom e.blockN) (historyTo e.blockN) with
  | Except.error innerErr => innerErr
  | Except.ok _ => historyMsg changeSetBucket e.blockN (hp.CompositeKeyWithoutIncarnation e.k)

/-- The entries of a shadow map that the loop over `l` leaves in place: those at
or below the horizon and those whose block number is not a key of `l`. -/
def kept (h : Nat) (l : ShadowMap) (m : ShadowMap) : ShadowMap :=
  m.filter fun p => !(decide (h < p.1) && (l.map Prod.fst).contains p.1)

/-- The block numbers of a shadow map above the horizon, in map order. -/
def above (h : Nat) (l : ShadowMap) : List Nat :=
  (l.map Prod.fst).filter fun b => decide (h < b)

/-- The collaborators never fail and the run is never cancelled. -/
def Env.quiet (env : Env) : Prop :=
  env.start = Res.ok () ∧
    ∀ n, env.ctxDone n = false ∧ env.reopen n = none ∧ env.commitUnwind n = none ∧
      ∀ p, env.mining n p = Res.ok ()

/-- The execution stage moves the progress exactly to the target it is given. -/
def Env.exact (env : Env) : Prop :=
  ∀ n p execToBlock, env.forward n p execToBlock = Except.ok execToBlock

/-- The execution stage leaves the progress where it is when its target is not
above it. -/
def Env.steady (env : Env) : Prop :=
  ∀ n p execToBlock, execToBlock ≤ p → env.forward n p execToBlock = Except.ok p

/-- The state in which a pass through the loop body ends. -/
def Step.state : Step → LoopState
  | Step.next s => s
  | Step.exit s _ => s

/-- The number a string of decimal digit characters stands for. -/
def decimalValue (cs : List Char) : Nat := cs.foldl (fun acc c => 10 * acc + (c.toNat - 48)) 0

/-- The value of one lower-case hexadecimal digit character. -/
def hexValue (c : Char) : Nat := if c.toNat ≤ 57 then c.toNat - 48 else c.toNat - 87

/-! ## Concrete inputs used below -/

/-- Collaborators that never fail and are never cancelled, with an execution
stage that moves the progress exactly to the target it is given. -/
def exactEnv : Env :=
  ⟨Res.ok (), fun _ => false, fun _ => none, fun _ _ execToBlock => Except.ok execToBlock,
    fun _ _ => Res.ok (), fun _ => none⟩

/-- Collaborators that never fail and are never cancelled, with an execution
stage that executes up to its target and does nothing when the target is not
above the progress. -/
def steadyEnv : Env :=
  ⟨Res.ok (), fun _ => false, fun _ => none,
    fun _ progress execToBlock => Except.ok (if execToBlock ≤ progress then progress else execToBlock),
    fun _ _ => Res.ok (), fun _ => none⟩

/-- Helpers as the repository defines them for the two change-set buckets: the
history bucket of each, and the composite key with the 8-byte incarnation cut
out of a 60-byte or 72-byte storage key. -/
def sampleHelpers : Helpers :=
  ⟨fun bucket => if bucket == AccountChangeSetBucket then "AccountHistory" else "StorageHistory",
    fun key =>
      if key.length == 72 then key.take 32 ++ key.drop 40
      else if key.length == 60 then key.take 20 ++ key.drop 28
      else key⟩

/-- A store holding one account change-set record, for block 50, key `0xAA..AA`
(20 bytes) and value `0x01`, and an empty history index. -/
def tx50 : Tx :=
  ⟨fun bucket =>
      if bucket == AccountChangeSetBucket then [⟨50, List.replicate 20 0xAA, [0x01]⟩] else [],
    fun _ _ _ _ => Except.ok []⟩

/-- A store with no change-set record and an empty history index. -/
def emptyTx : Tx := ⟨fun _ => [], fun _ _ _ _ => Except.ok []⟩

/-! # Theorems -/

/-! ## Machine arithmetic -/

/-- A number below `2 ^ 64` is its own `uint64` value. -/
theorem u64_of_lt {n : Nat} (h : n < 2 ^ 64) : u64 n = n := Nat.mod_eq_of_lt h

/-- Reduction to `uint64` never increases a number. -/
theorem u64_le (n : Nat) : u64 n ≤ n := Nat.mod_le _ _

/-- A `uint64` value is below `2 ^ 64`. -/
theorem u64_lt (n : Nat) : u64 n < 2 ^ 64 := Nat.mod_lt _ (by norm_num)

/-- A `uint64` difference is below `2 ^ 64`. -/
theorem subU64_lt (a b : Nat) : subU64 a b < 2 ^ 64 := Nat.mod_lt _ (by norm_num)

/-- Subtraction on `uint64` is ordinary subtraction when it does not go below zero. -/
theorem subU64_of_le {a b : Nat} (hba : b ≤ a) (ha : a < 2 ^ 64) : subU64 a b = a - b := by
  unfold subU64
  omega

/-- Subtraction on `uint64` wraps around by `2 ^ 64` when the subtrahend is the larger operand. -/
theorem subU64_of_lt {a b : Nat} (hab : a < b) (hb : b < 2 ^ 64) :
    subU64 a b = a + 2 ^ 64 - b := by
  unfold subU64
  omega

/-! ## `checkMinedBlock` -/

/-- Claim C1: for every pair of blocks and every chain configuration,
`checkMinedBlock` returns without panicking if and only if the two headers agree
on `Root`, `TxHash`, `ParentHash`, `UncleHash`, `GasUsed` and the bytes of
`Extra`, and, when `IsByzantium` holds for the number of `b1`, on `ReceiptHash`
as well; when Byzantium is not active for that number the receipt hash is not
compared. The only other outcome is the panic "blocks are not same". -/
theorem checkMinedBlock_ok_iff (b1 b2 : Block) (chainConfig : ChainConfig) :
    (checkMinedBlock b1 b2 chainConfig = Res.ok () ↔
      b1.Header.Root = b2.Header.Root ∧
      b1.Header.TxHash = b2.Header.TxHash ∧
      b1.Header.ParentHash = b2.Header.ParentHash ∧
      b1.Header.UncleHash = b2.Header.UncleHash ∧
      b1.Header.GasUsed = b2.Header.GasUsed ∧
      b1.Header.Extra = b2.Header.Extra ∧
      (chainConfig.IsByzantium b1.NumberU64 = true →
        b1.Header.ReceiptHash = b2.Header.ReceiptHash)) ∧
    (checkMinedBlock b1 b2 chainConfig = Res.ok () ∨
      checkMinedBlock b1 b2 chainConfig = Res.panic "blocks are not same") := by
  unfold checkMinedBlock
  simp only [bytesEqual]
  constructor
  · split
    · rename_i h
      simp only [Bool.or_eq_true, Bool.and_eq_true, bne_iff_ne, ne_eq, Bool.not_eq_true',
        beq_eq_false_iff_ne] at h
      simp only [reduceCtorEq, false_iff]
      tauto
    · rename_i h
      simp only [Bool.or_eq_true, Bool.and_eq_true, bne_iff_ne, ne_eq, Bool.not_eq_true',
        beq_eq_false_iff_ne] at h
      simp only [true_iff]
      push_neg at h
      tauto
  · split
    · right; rfl
    · left; rfl

/-! ## `checkChangeSet` -/

/-- With `fixedbits = 64` the walk visits exactly the records of the start block. -/
theorem walked_block (db : Tx) (bucket : String) (blockNum : Nat) :
    walked db bucket blockNum (8 * 8) = persisted db bucket blockNum := by
  unfold walked persisted
  apply List.filter_congr
  intro e _
  by_cases h : e.blockN = blockNum
  · simp [h]
  · have h2 : ¬ (e.blockN / 2 ^ (64 - 8 * 8) = blockNum / 2 ^ (64 - 8 * 8)) := by
      simpa using h
    simp [h, h2]

/-- With `fixedbits = 0` the walk visits every record at or above the start block. -/
theorem walked_from (db : Tx) (bucket : String) (blockNum : Nat) :
    walked db bucket blockNum 0 =
      (db.changeSets bucket).filter fun e => decide (blockNum ≤ e.blockN) := by
  unfold walked
  apply List.filter_congr
  intro e _
  simp

/-- Sorting a change-set rearranges its entries and loses none. -/
theorem sortChangeSet_perm (s : ChangeSet) : (sortChangeSet s).Changes.Perm s.Changes :=
  List.perm_insertionSort _ _

/-- Of two byte strings, one is at most the other in the order of `bytes.Compare`. -/
theorem bytesCompare_total : ∀ a b : Bytes, bytesCompare a b ≤ 0 ∨ bytesCompare b a ≤ 0 := by
  intro a
  induction a with
  | nil => intro b; cases b <;> simp [bytesCompare]
  | cons x xs ih =>
    intro b
    cases b with
    | nil => simp [bytesCompare]
    | cons y ys =>
      simp only [bytesCompare]
      by_cases h1 : x < y
      · simp [h1]
      · by_cases h2 : y < x
        · simp [h2]
        · simp only [h1, h2, if_false]
          exact ih ys

/-- The order of `bytes.Compare` is transitive. -/
theorem bytesCompare_trans : ∀ a b c : Bytes,
    bytesCompare a b ≤ 0 → bytesCompare b c ≤ 0 → bytesCompare a c ≤ 0 := by
  intro a
  induction a with
  | nil => intro b c _ _; cases c <;> simp [bytesCompare]
  | cons x xs ih =>
    intro b c hab hbc
    cases b with
    | nil => simp [bytesCompare] at hab
    | cons y ys =>
      cases c with
      | nil => simp [bytesCompare] at hbc
      | cons z zs =>
        simp only [bytesCompare] at hab hbc ⊢
        by_cases hxy : x < y
        · have hxz : x < z := by
            by_cases hyz : y < z
            · omega
            · by_cases hzy : z < y
              · simp [hyz, hzy] at hbc
              · omega
          simp [hxz]
        · by_cases hyx : y < x
          · simp [hxy, hyx] at hab
          · have hxy2 : x = y := by omega
            subst hxy2
            simp only [hxy, if_false] at hab
            by_cases hxz : x < z
            · simp [hxz]
            · by_cases hzx : z < x
              · simp [hxz, hzx] at hbc
              · simp only [hxz, hzx, if_false] at hbc ⊢
                exact ih ys zs hab hbc

/-- A sorted change-set has its keys in non-decreasing order of `bytes.Compare`. -/
theorem sortChangeSet_sorted (s : ChangeSet) :
    (sortChangeSet s).Changes.Sorted (fun a b => bytesCompare a.Key b.Key ≤ 0) := by
  haveI : IsTotal Change (fun a b => bytesCompare a.Key b.Key ≤ 0) :=
    ⟨fun a b => bytesCompare_total a.Key b.Key⟩
  haveI : IsTrans Change (fun a b => bytesCompare a.Key b.Key ≤ 0) :=
    ⟨fun a b c => bytesCompare_trans a.Key b.Key c.Key⟩
  exact List.sorted_insertionSort _ _

/-- Sorting a change-set keeps its length. -/
theorem sortChangeSet_Len (s : ChangeSet) : (sortChangeSet s).Len = s.Len := by
  simp [sortChangeSet, ChangeSet.Len]

/-- The walk of `checkChangeSet` started at index `i` returns no error exactly
when the persisted records, as key/value pairs, are a prefix of the expected
entries from index `i` on, and it then leaves `i` advanced by their number. -/
theorem changeSetWalk_spec (domain : String) (blockNum : Nat) (expected : ChangeSet) :
    ∀ (es : List CSEntry) (s : WalkVars),
      ((walkLoop (changeSetWalker domain blockNum expected) s es).2 = Res.ok () ↔
        es.map CSEntry.toChange <+: expected.Changes.drop s.i) ∧
      ((walkLoop (changeSetWalker domain blockNum expected) s es).2 = Res.ok () →
        (walkLoop (changeSetWalker domain blockNum expected) s es).1 = ⟨s.i + es.length, s.out⟩) := by
  intro es
  induction es with
  | nil => intro s; simp [walkLoop]
  | cons e es ih =>
    intro s
    cases hget : expected.Changes[s.i]? with
    | none =>
      have hlen : expected.Changes.length ≤ s.i := by simpa using hget
      simp [walkLoop, changeSetWalker, hget, List.drop_eq_nil_of_le hlen]
    | some c =>
      obtain ⟨hlt, hc⟩ := List.getElem?_eq_some_iff.mp hget
      have hdrop : expected.Changes.drop s.i = c :: expected.Changes.drop (s.i + 1) := by
        rw [← hc]; exact List.drop_eq_getElem_cons hlt
      by_cases hm : c = e.toChange
      · have hk : (bytesEqual c.Key e.k && bytesEqual c.Value e.v) = true := by
          subst hm; simp [bytesEqual, CSEntry.toChange]
        have ih1 := ih ⟨s.i + 1, s.out⟩
        simp only [walkLoop, changeSetWalker, hget, hk, if_true, hdrop, List.map_cons,
          List.length_cons]
        rw [← hm, List.cons_prefix_cons]
        simp only [true_and]
        refine ⟨ih1.1, fun h => ?_⟩
        rw [ih1.2 h]
        simp [Nat.add_assoc, Nat.add_comm 1]
      · have hk : (bytesEqual c.Key e.k && bytesEqual c.Value e.v) = false := by
          rw [Bool.eq_false_iff]
          intro h
          simp only [bytesEqual, Bool.and_eq_true, beq_iff_eq] at h
          apply hm
          cases c
          simp only [CSEntry.toChange, Change.mk.injEq]
          exact h
        simp only [walkLoop, changeSetWalker, hget, hk, hdrop, List.map_cons,
          List.cons_prefix_cons]
        simp [Ne.symm hm]

/-- One domain of `checkChangeSet` passes both the walk and the count test
exactly when the persisted key/value pairs are the expected entries. -/
theorem changeSetWalk_ok_len (domain : String) (blockNum : Nat) (expected : ChangeSet)
    (es : List CSEntry) (out : List String) :
    ((walkLoop (changeSetWalker domain blockNum expected) ⟨0, out⟩ es).2 = Res.ok () ∧
      expected.Len = (walkLoop (changeSetWalker domain blockNum expected) ⟨0, out⟩ es).1.i) ↔
      es.map CSEntry.toChange = expected.Changes := by
  have h := changeSetWalk_spec domain blockNum expected es ⟨0, out⟩
  simp only [List.drop_zero, Nat.zero_add] at h
  constructor
  · rintro ⟨hok, hlen⟩
    rw [h.2 hok] at hlen
    exact (h.1.mp hok).eq_of_length (by simpa [ChangeSet.Len] using hlen.symm)
  · intro heq
    have hok := h.1.mpr (heq ▸ List.prefix_refl _)
    refine ⟨hok, ?_⟩
    rw [h.2 hok]
    simp [ChangeSet.Len, ← heq]

/-- The outcome of `checkChangeSet` is `ok` exactly when, in each domain, the
persisted key/value pairs are the sorted expected change-set. -/
theorem checkChangeSet_res (db : Tx) (blockNum : Nat) (ea : ChangeSet) (es : Option ChangeSet) :
    (checkChangeSet db blockNum ea es).res = Res.ok () ↔
      (persisted db AccountChangeSetBucket blockNum).map CSEntry.toChange =
          (sortChangeSet ea).Changes ∧
        (persisted db StorageChangeSetBucket blockNum).map CSEntry.toChange =
          (sortChangeSet (es.getD NewChangeSet)).Changes := by
  have ha := fun out => changeSetWalk_ok_len "account" blockNum (sortChangeSet ea)
    (persisted db AccountChangeSetBucket blockNum) out
  have hs := fun out => changeSetWalk_ok_len "storage" blockNum
    (sortChangeSet (es.getD NewChangeSet)) (persisted db StorageChangeSetBucket blockNum) out
  unfold checkChangeSet Walk
  simp only [walked_block]
  rw [← ha [], ]
  generalize walkLoop (changeSetWalker "account" blockNum (sortChangeSet ea)) ⟨0, []⟩
    (persisted db AccountChangeSetBucket blockNum) = wa
  obtain ⟨s, r⟩ := wa
  cases r with
  | error m => simp
  | panic m => simp
  | ok u =>
    cases u
    by_cases hl : (sortChangeSet ea).Len = s.i
    · simp only [hl, ne_eq, not_true_eq_false, if_false, and_self, true_and]
      rw [← hs s.out]
      generalize walkLoop (changeSetWalker "storage" blockNum
        (sortChangeSet (es.getD NewChangeSet))) ⟨0, s.out⟩
        (persisted db StorageChangeSetBucket blockNum) = ws
      obtain ⟨t, r2⟩ := ws
      cases r2 with
      | error m => simp
      | panic m => simp
      | ok u =>
        cases u
        by_cases hl2 : (sortChangeSet (es.getD NewChangeSet)).Len = t.i <;> simp [hl2]
    · simp [hl]

/-- Two lists agree as key/value pairs exactly when they have the same length
and agree on key and value at every index. -/
theorem map_toChange_eq_iff (pa : List CSEntry) (xs : List Change) :
    pa.map CSEntry.toChange = xs ↔
      pa.length = xs.length ∧
        ∀ i, i < pa.length → ∃ e c, pa[i]? = some e ∧ xs[i]? = some c ∧
          e.k = c.Key ∧ e.v = c.Value := by
  constructor
  · rintro rfl
    refine ⟨by simp, fun i hi => ?_⟩
    exact ⟨pa[i], pa[i].toChange, by simp [hi], by simp [hi], rfl, rfl⟩
  · rintro ⟨hlen, h⟩
    apply List.ext_getElem (by simpa using hlen)
    intro i h1 h2
    have hi : i < pa.length := by simpa using h1
    obtain ⟨e, c, he, hc, hk, hv⟩ := h i hi
    rw [List.getElem?_eq_getElem hi] at he
    rw [List.getElem?_eq_getElem h2] at hc
    simp only [Option.some.injEq] at he hc
    rw [List.getElem_map, he, hc]
    cases c
    simp only [CSEntry.toChange, Change.mk.injEq]
    exact ⟨hk, hv⟩

/-- Claim C2: for every block number, expected account change-set and expected
storage change-set (a nil storage change-set counting as the empty one) and every
store, `checkChangeSet` returns no error if and only if, in each of the two
domains, the persisted list of the block has exactly as many entries as the
expected change-set and its `i`-th entry equals the `i`-th entry of the
key-sorted expected change-set on key bytes and on value bytes. -/
theorem checkChangeSet_ok_iff (db : Tx) (blockNum : Nat) (expectedAccountChanges : ChangeSet)
    (expectedStorageChanges : Option ChangeSet) :
    (checkChangeSet db blockNum expectedAccountChanges expectedStorageChanges).res = Res.ok () ↔
      ((persisted db AccountChangeSetBucket blockNum).length = expectedAccountChanges.Len ∧
        ∀ i, i < (persisted db AccountChangeSetBucket blockNum).length →
          ∃ e c, (persisted db AccountChangeSetBucket blockNum)[i]? = some e ∧
            (sortChangeSet expectedAccountChanges).Changes[i]? = some c ∧
            e.k = c.Key ∧ e.v = c.Value) ∧
      ((persisted db StorageChangeSetBucket blockNum).length =
          (expectedStorageChanges.getD NewChangeSet).Len ∧
        ∀ i, i < (persisted db StorageChangeSetBucket blockNum).length →
          ∃ e c, (persisted db StorageChangeSetBucket blockNum)[i]? = some e ∧
            (sortChangeSet (expectedStorageChanges.getD NewChangeSet)).Changes[i]? = some c ∧
            e.k = c.Key ∧ e.v = c.Value) := by
  rw [checkChangeSet_res, map_toChange_eq_iff, map_toChange_eq_iff]
  have h1 := sortChangeSet_Len expectedAccountChanges
  have h2 := sortChangeSet_Len (expectedStorageChanges.getD NewChangeSet)
  simp only [ChangeSet.Len] at h1 h2 ⊢
  rw [h1, h2]

/-- The sibling path: a persisted entry that differs from the expected entry at
the same index is reported with the block number, the persisted key and value
and the expected key and value, and the call returns an error. -/
theorem checkChangeSet_mismatch_report :
    checkChangeSet tx50 50 ⟨[⟨List.replicate 20 0xAB, [0x01]⟩]⟩ none =
      ⟨["Unexpected account changes in block 50",
        "In the database: ======================",
        "0xaaaaaaaaaaaaaaaaaaaaaaaaaaaaaaaaaaaaaaaa: 01",
        "Expected: ==========================",
        "0xabababababababababababababababababababab 01"],
       Res.error "check change set failed", ⟨[⟨List.replicate 20 0xAB, [0x01]⟩]⟩, none⟩ := by
  decide

/-- Claim C3, the code at the failing input: with the persisted account entry
(block 50, key `0xAA..AA`, value `0x01`) and an empty expected account
change-set, `checkChangeSet` does not return an error: the lookup
`expectedAccountChanges.Changes[0]` is out of range and the call panics, having
printed nothing about the block or the key. -/
theorem checkChangeSet_extra_entry_panics :
    checkChangeSet tx50 50 ⟨[]⟩ none =
      ⟨[], Res.panic "runtime error: index out of range [0] with length 0", ⟨[]⟩, none⟩ := by
  decide

/-! ## `checkHistory` -/

/-- The walker of `checkHistory` continues on a record whose block is in the set returned for it. -/
theorem historyWalker_good (hp : Helpers) (tx : Tx) (bucket : String) (e : CSEntry)
    (h : historyGood hp tx bucket e) : historyWalker hp tx bucket () e = ((), Res.ok true) := by
  obtain ⟨bm, hq, hin⟩ := h
  simp [historyWalker, hq, hin]

/-- The walker of `checkHistory` stops with an error on any other record. -/
theorem historyWalker_bad (hp : Helpers) (tx : Tx) (bucket : String) (e : CSEntry)
    (h : ¬ historyGood hp tx bucket e) :
    historyWalker hp tx bucket () e = ((), Res.error (historyFailure hp tx bucket e)) := by
  unfold historyGood at h
  unfold historyWalker historyFailure
  cases hq : tx.Get64 (hp.IndexBucket bucket) (hp.CompositeKeyWithoutIncarnation e.k)
      (historyFrom e.blockN) (historyTo e.blockN) with
  | error m => simp [hq]
  | ok bm =>
    have hin : e.blockN ∉ bm := fun hin => h ⟨bm, hq, hin⟩
    simp [hq, hin]

/-- The walk of `checkHistory` fails at the first record whose block is missing, with the error of that record. -/
theorem historyWalk_first (hp : Helpers) (tx : Tx) (bucket : String) :
    ∀ (pre : List CSEntry) (e : CSEntry) (post : List CSEntry),
      (∀ x ∈ pre, historyGood hp tx bucket x) → ¬ historyGood hp tx bucket e →
      (walkLoop (historyWalker hp tx bucket) () (pre ++ e :: post)).2 =
        Res.error (historyFailure hp tx bucket e) := by
  intro pre
  induction pre with
  | nil =>
    intro e post _ hbad
    simp only [List.nil_append, walkLoop, historyWalker_bad hp tx bucket e hbad]
  | cons x pre ih =>
    intro e post hpre hbad
    have hx := historyWalker_good hp tx bucket x (hpre x (List.mem_cons_self _ _))
    simp only [List.cons_append, walkLoop, hx]
    exact ih e post (fun y hy => hpre y (List.mem_cons_of_mem _ hy)) hbad

/-- The walk of `checkHistory` returns no error exactly when every record has its block in the set returned for it. -/
theorem historyWalk_ok (hp : Helpers) (tx : Tx) (bucket : String) :
    ∀ es : List CSEntry,
      (walkLoop (historyWalker hp tx bucket) () es).2 = Res.ok () ↔
        ∀ e ∈ es, historyGood hp tx bucket e := by
  intro es
  induction es with
  | nil => simp [walkLoop]
  | cons x es ih =>
    by_cases hx : historyGood hp tx bucket x
    · simp only [walkLoop, historyWalker_good hp tx bucket x hx, ih, List.mem_cons, forall_eq_or_imp,
        hx, true_and]
    · have h1 := historyWalk_first hp tx bucket [] x es (by simp) hx
      simp only [List.nil_append] at h1
      rw [h1]
      constructor
      · intro h; cases h
      · intro h; exact absurd (h x (List.mem_cons_self _ _)) hx

/-- A decimal digit character has the value of its digit. -/
theorem digitChar_decimal (d : Nat) (h : d < 10) : (Nat.digitChar d).toNat - 48 = d := by
  interval_cases d <;> decide

/-- A hexadecimal digit character has the value of its digit. -/
theorem digitChar_hex (d : Nat) (h : d < 16) : hexValue (Nat.digitChar d) = d := by
  interval_cases d <;> decide

/-- The digits that `Nat.toDigitsCore` puts in front of a digit string stand for its argument. -/
theorem toDigitsCore_value : ∀ (fuel n : Nat) (ds : List Char), n < fuel →
    (Nat.toDigitsCore 10 fuel n ds).foldl (fun acc c => 10 * acc + (c.toNat - 48)) 0 =
      ds.foldl (fun acc c => 10 * acc + (c.toNat - 48)) n := by
  intro fuel
  induction fuel with
  | zero => intro n ds h; omega
  | succ fuel ih =>
    intro n ds h
    simp only [Nat.toDigitsCore]
    have hd := digitChar_decimal (n % 10) (Nat.mod_lt _ (by decide))
    split
    · rename_i h0
      simp only [List.foldl_cons, hd]
      congr 1
      omega
    · rename_i h0
      rw [ih (n / 10) _ (by omega)]
      simp only [List.foldl_cons, hd]
      congr 1
      omega

/-- The decimal rendering of a number (the verb `%d`) stands for that number. -/
theorem decimal_toString (n : Nat) : decimalValue (toString n).data = n := by
  show decimalValue (Nat.toDigits 10 n) = n
  unfold decimalValue Nat.toDigits
  rw [toDigitsCore_value (n + 1) n [] (by omega)]
  rfl

/-- Two numbers with the same decimal rendering are equal. -/
theorem decimal_inj (m n : Nat) (h : toString m = toString n) : m = n := by
  have := congrArg (fun s : String => decimalValue s.data) h
  simpa [decimal_toString] using this

/-- The characters of the hexadecimal rendering of a byte slice: two digits per byte. -/
theorem hexBytes_data (bs : Bytes) :
    (hexBytes bs).data =
      (bs.map fun b => [Nat.digitChar (b / 16 % 16), Nat.digitChar (b % 16)]).flatten := by
  simp only [hexBytes, String.data_join, List.map_map]
  congr 1

/-- Two byte slices with the same hexadecimal rendering (the verb `%x`) are equal. -/
theorem hexBytes_inj : ∀ k1 k2 : Bytes, (∀ b ∈ k1, b < 256) → (∀ b ∈ k2, b < 256) →
    hexBytes k1 = hexBytes k2 → k1 = k2 := by
  intro k1
  induction k1 with
  | nil =>
    intro k2 _ _ h
    have hd := congrArg String.data h
    rw [hexBytes_data, hexBytes_data] at hd
    cases k2 with
    | nil => rfl
    | cons y ys => simp at hd
  | cons x xs ih =>
    intro k2 h1 h2 h
    have hd := congrArg String.data h
    rw [hexBytes_data, hexBytes_data] at hd
    cases k2 with
    | nil => simp at hd
    | cons y ys =>
      simp only [List.map_cons, List.flatten_cons, List.cons_append, List.nil_append,
        List.cons.injEq] at hd
      obtain ⟨ha, hb, hrest⟩ := hd
      have hx : x < 256 := h1 x (List.mem_cons_self _ _)
      have hy : y < 256 := h2 y (List.mem_cons_self _ _)
      have ha2 := congrArg hexValue ha
      have hb2 := congrArg hexValue hb
      rw [digitChar_hex _ (Nat.mod_lt _ (by decide)), digitChar_hex _ (Nat.mod_lt _ (by decide))]
        at ha2 hb2
      have hxy : x = y := by omega
      subst hxy
      congr 1
      apply ih ys (fun b hb => h1 b (List.mem_cons_of_mem _ hb))
        (fun b hb => h2 b (List.mem_cons_of_mem _ hb))
      apply String.ext
      rw [hexBytes_data, hexBytes_data]
      exact hrest

/-- Claim C4: for every change-set bucket, every `blockNum` and every store,
`checkHistory` returns no error if and only if for every change-set record of
the bucket at a block `B >= blockNum` the history query for the composite key
without incarnation of the record, from `max(0, B - 1)` up to `B + 1`, returns a
set that contains `B`. When the first record in walk order that fails this has
a query that returned a set (no store error), the error returned is the text
"checkHistory failed: bucket=", the bucket name, ",block=", the block `B` in
decimal, ",addr=" and the key in hexadecimal; the decimal and the hexadecimal
rendering are injective, so the message determines the block and the key. The
lower bound is `0` for `B = 0` and `B - 1` otherwise (no wrap-around); the upper
bound is the `uint64` value of `B + 1`, which is `B + 1` for every `B` below
`2 ^ 64 - 1`. -/
theorem checkHistory_ok_iff (hp : Helpers) (tx : Tx) (changeSetBucket : String) (blockNum : Nat) :
    (checkHistory hp tx changeSetBucket blockNum = Res.ok () ↔
      ∀ e ∈ tx.changeSets changeSetBucket, blockNum ≤ e.blockN →
        ∃ bm, tx.Get64 (hp.IndexBucket changeSetBucket) (hp.CompositeKeyWithoutIncarnation e.k)
          (historyFrom e.blockN) (historyTo e.blockN) = Except.ok bm ∧ e.blockN ∈ bm) ∧
    (∀ pre e post bm,
      (tx.changeSets changeSetBucket).filter (fun x => decide (blockNum ≤ x.blockN)) =
          pre ++ e :: post →
      (∀ x ∈ pre, ∃ bx, tx.Get64 (hp.IndexBucket changeSetBucket)
          (hp.CompositeKeyWithoutIncarnation x.k) (historyFrom x.blockN) (historyTo x.blockN) =
            Except.ok bx ∧ x.blockN ∈ bx) →
      tx.Get64 (hp.IndexBucket changeSetBucket) (hp.CompositeKeyWithoutIncarnation e.k)
          (historyFrom e.blockN) (historyTo e.blockN) = Except.ok bm →
      e.blockN ∉ bm →
      checkHistory hp tx changeSetBucket blockNum =
        Res.error ("checkHistory failed: bucket=" ++ changeSetBucket ++ ",block=" ++
          toString e.blockN ++ ",addr=" ++ hexBytes (hp.CompositeKeyWithoutIncarnation e.k))) ∧
    ((∀ m n : Nat, toString m = toString n → m = n) ∧
      ∀ k1 k2 : Bytes, (∀ b ∈ k1, b < 256) → (∀ b ∈ k2, b < 256) →
        hexBytes k1 = hexBytes k2 → k1 = k2) ∧
    (historyFrom 0 = 0 ∧ (∀ B, 0 < B → historyFrom B = B - 1) ∧
      ∀ B, B + 1 < 2 ^ 64 → historyTo B = B + 1) := by
  refine ⟨?_, ?_, ⟨decimal_inj, hexBytes_inj⟩, ?_, ?_, ?_⟩
  · unfold checkHistory Walk
    rw [walked_from, historyWalk_ok]
    simp only [List.mem_filter, decide_eq_true_eq, and_imp, historyGood]
  · intro pre e post bm hsplit hpre hq hin
    unfold checkHistory Walk
    rw [walked_from, hsplit, historyWalk_first hp tx changeSetBucket pre e post hpre]
    · simp only [historyFailure, hq, historyMsg]
    · rintro ⟨bm2, hq2, hin2⟩
      rw [hq] at hq2
      cases hq2
      exact hin hin2
  · rfl
  · intro B hB
    simp [historyFrom, hB]
  · intro B hB
    exact Nat.mod_eq_of_lt hB

/-- Claim C4, an instance of the failure report: on the store with one account
record for block 50 and an empty history index, `checkHistory` returns the
error whose text names the bucket `AccountChangeSet`, block 50 and the key
`aa..aa`. -/
theorem checkHistory_ok_iff_witness :
    checkHistory sampleHelpers tx50 AccountChangeSetBucket 0 =
      Res.error
        "checkHistory failed: bucket=AccountChangeSet,block=50,addr=aaaaaaaaaaaaaaaaaaaaaaaaaaaaaaaaaaaaaaaa" :=
  ((checkHistory_ok_iff sampleHelpers tx50 AccountChangeSetBucket 0).2.1
    [] ⟨50, List.replicate 20 0xAA, [0x01]⟩ [] [] (by decide) (by simp) rfl (by simp)).trans
    (by decide)

/-! ## The forward target of the stepper -/

/-- Claim C5, the code at the failing input: with `block = 105`,
`unwindEvery = 10`, `unwind = 3`, the Senders stage at 200 and progress 100, the
stop target is 105, the loop condition holds and the forward target handed to
the execution stage is `stopAt + 1 = 106`, above the stop target; an execution
stage that reaches its target leaves the progress at 106, where the run ends.
The sibling path with `block = 105` alone hands over the target 105 and the run
ends at 105. -/
theorem execTarget_exceeds_stop :
    (3 : Nat) ≤ 10 ∧ stopAt ⟨105, 10, 3⟩ 200 100 = 105 ∧
      loopCond (backward ⟨105, 10, 3⟩) 100 105 = true ∧
      execTarget 105 10 3 100 105 (backward ⟨105, 10, 3⟩) = some (106, 0) ∧ (105 : Nat) < 106 ∧
      syncBySmallSteps exactEnv ⟨105, 10, 3⟩ 200 100 1 =
        Outcome.running ⟨1, 106, 0, 106, [106], []⟩ ∧
      syncBySmallSteps exactEnv ⟨105, 10, 3⟩ 200 100 2 =
        Outcome.returned ⟨1, 106, 0, 106, [106], []⟩ (Res.ok ()) ∧
      stopAt ⟨105, 0, 0⟩ 200 100 = 105 ∧
      execTarget 105 0 0 100 105 (backward ⟨105, 0, 0⟩) = some (105, 0) ∧
      syncBySmallSteps exactEnv ⟨105, 0, 0⟩ 200 100 1 =
        Outcome.returned ⟨0, 105, 0, 105, [105], []⟩ (Res.ok ()) := by
  decide

/-- What lines 254-271 compute in forward mode (`unwind <= unwindEvery`): the
forward target is at most `stopAt + 1`; when it is above `stopAt` it is exactly
`stopAt + 1` and the variable `unwind` has been reset to `0`; otherwise `unwind`
is unchanged and, when a cadence or a retreat is configured and
`execAt + unwindEvery` does not wrap, the target is
`execAt + unwindEvery - unwind`. -/
theorem execTarget_forward (block unwindEvery unwind execAtBlock stop t u : Nat)
    (hfw : unwind ≤ unwindEvery) (hb : block < 2 ^ 64)
    (h : execTarget block unwindEvery unwind execAtBlock stop
      (backward ⟨block, unwindEvery, unwind⟩) = some (t, u)) :
    t ≤ stop + 1 ∧ (stop < t → t = stop + 1 ∧ u = 0) ∧ (t ≤ stop → u = unwind) ∧
      ((0 < unwindEvery ∨ 0 < unwind) → execAtBlock + unwindEvery < 2 ^ 64 →
        (stop < execAtBlock + unwindEvery - unwind → t = stop + 1 ∧ u = 0) ∧
        (execAtBlock + unwindEvery - unwind ≤ stop → t = execAtBlock + unwindEvery - unwind)) := by
  have hbw : backward ⟨block, unwindEvery, unwind⟩ = false := by
    simp [backward]; omega
  rw [hbw] at h
  unfold execTarget at h
  by_cases hc : unwindEvery > 0 ∨ unwind > 0
  · simp only [hc, if_true] at h
    by_cases hg : u64 (execAtBlock + unwindEvery) > unwind
    · simp only [hg, if_true, Bool.false_eq_true, if_false] at h
      have hx := subU64_lt (u64 (execAtBlock + unwindEvery)) unwind
      have hsub : ∀ (_ : execAtBlock + unwindEvery < 2 ^ 64),
          subU64 (u64 (execAtBlock + unwindEvery)) unwind = execAtBlock + unwindEvery - unwind := by
        intro hlt
        rw [u64_of_lt hlt] at hg ⊢
        exact subU64_of_le (Nat.le_of_lt hg) hlt
      split at h
      · rename_i hgt
        have hs : stop + 1 < 2 ^ 64 := by omega
        simp only [Option.some.injEq, Prod.mk.injEq] at h
        obtain ⟨ht, hu⟩ := h
        rw [u64_of_lt hs] at ht
        subst ht hu
        refine ⟨le_refl _, fun _ => ⟨rfl, rfl⟩, fun hle => by omega, fun _ hlt => ⟨fun _ => ⟨rfl, rfl⟩, fun hle => ?_⟩⟩
        rw [hsub hlt] at hgt
        omega
      · rename_i hle
        simp only [Option.some.injEq, Prod.mk.injEq] at h
        obtain ⟨ht, hu⟩ := h
        subst ht hu
        refine ⟨by omega, fun hlt => by omega, fun _ => rfl, fun _ hlt => ⟨fun hgt => ?_, fun _ => hsub hlt⟩⟩
        rw [hsub hlt] at hle
        omega
    · simp [hg] at h
  · simp only [hc, if_false, Bool.false_eq_true] at h
    have h0 : ¬ (0 < unwindEvery ∨ 0 < unwind) := hc
    split at h
    · rename_i hgt
      have hs : stop + 1 < 2 ^ 64 := by omega
      simp only [Option.some.injEq, Prod.mk.injEq] at h
      obtain ⟨ht, hu⟩ := h
      rw [u64_of_lt hs] at ht
      subst ht hu
      exact ⟨le_refl _, fun _ => ⟨rfl, rfl⟩, fun hle => by omega, fun hx => absurd hx h0⟩
    · rename_i hle
      simp only [Option.some.injEq, Prod.mk.injEq] at h
      obtain ⟨ht, hu⟩ := h
      subst ht hu
      exact ⟨by omega, fun hlt => by omega, fun _ => rfl, fun hx => absurd hx h0⟩

/-- Claim C7 as stated fails: with `unwind = unwindEvery = 5`, the Senders
stage at 100 and progress 10, the stop target is 100, the stepper is not in
backward mode, the loop condition holds, and the forward target handed to the
execution stage is 10, below the stop target. -/
theorem execTarget_equal_retreat_below_stop :
    (5 : Nat) ≥ 5 ∧ stopAt ⟨0, 5, 5⟩ 100 10 = 100 ∧
      loopCond (backward ⟨0, 5, 5⟩) 10 100 = true ∧
      execTarget 0 5 5 10 100 (backward ⟨0, 5, 5⟩) = some (10, 5) ∧ (10 : Nat) < 100 ∧
      syncBySmallSteps exactEnv ⟨0, 5, 5⟩ 100 10 1 =
        Outcome.running ⟨1, 10, 5, 5, [10], [5]⟩ := by
  decide

/-- Claim C7 as amended: when the retreat amount is strictly greater than the
cadence (`unwindEvery < unwind`, the backward mode of the code) the forward
target of an iteration is never below the stop target, and `unwind` is left
unchanged. -/
theorem execTarget_backward (block unwindEvery unwind execAtBlock stop t u : Nat)
    (hbw : unwindEvery < unwind)
    (h : execTarget block unwindEvery unwind execAtBlock stop
      (backward ⟨block, unwindEvery, unwind⟩) = some (t, u)) :
    stop ≤ t ∧ u = unwind := by
  have hb : backward ⟨block, unwindEvery, unwind⟩ = true := by
    simp [backward]; omega
  rw [hb] at h
  unfold execTarget at h
  have hc : unwindEvery > 0 ∨ unwind > 0 := Or.inr (by omega)
  simp only [hc, if_true] at h
  by_cases hg : u64 (execAtBlock + unwindEvery) > unwind
  · simp only [hg, if_true] at h
    split at h
    · simp only [Option.some.injEq, Prod.mk.injEq] at h
      exact ⟨by omega, h.2.symm⟩
    · simp only [Option.some.injEq, Prod.mk.injEq] at h
      exact ⟨by omega, h.2.symm⟩
  · simp [hg] at h

/-- Claim C7 as amended, at cadence 1, retreat 10, progress 15 and stop
target 12: the unclamped target 6 is raised to the stop target. -/
theorem execTarget_backward_witness :
    ((1 : Nat) < 10 ∧ execTarget 12 1 10 15 12 (backward ⟨12, 1, 10⟩) = some (12, 10)) ∧
      ((12 : Nat) ≤ 12 ∧ (10 : Nat) = 10) :=
  ⟨⟨by decide, by decide⟩, execTarget_backward 12 1 10 15 12 12 10 (by decide) (by decide)⟩

/-! ## Runs of the stepper -/

/-- The collaborators `exactEnv` never fail. -/
theorem exactEnv_quiet : exactEnv.quiet := by
  simp [Env.quiet, exactEnv]

/-- The execution stage of `exactEnv` reaches its target exactly. -/
theorem exactEnv_exact : exactEnv.exact := by
  simp [Env.exact, exactEnv]

/-- The collaborators `steadyEnv` never fail. -/
theorem steadyEnv_quiet : steadyEnv.quiet := by
  simp [Env.quiet, steadyEnv]

/-- The execution stage of `steadyEnv` does nothing on a target not above the progress. -/
theorem steadyEnv_steady : steadyEnv.steady := by
  intro n p t h
  simp [steadyEnv, h]

/-- Claim C6 as stated fails: with progress 100, `unwindEvery = 10`,
`unwind = 3` and a stop target of exactly 111, the second iteration computes the
target 111, reaches the stop target and leaves the loop: the only unwind
requested is the one to 104, none to 108. -/
theorem scenario_stop_at_111 :
    exactEnv.quiet ∧ exactEnv.exact ∧ 111 ≤ stopAt ⟨0, 10, 3⟩ 111 100 ∧
      syncBySmallSteps exactEnv ⟨0, 10, 3⟩ 111 100 2 =
        Outcome.returned ⟨1, 111, 3, 111, [107, 111], [104]⟩ (Res.ok ()) :=
  ⟨exactEnv_quiet, exactEnv_exact, by decide, by decide⟩

/-- An iteration that reaches the bottom of the loop body with an unclamped
target: the target, the progress reached, and the unwind point requested. -/
theorem iteration_unclamped (env : Env) (f : Flags) (bw : Bool) (stop : Nat) (s s1 : LoopState)
    (hnext : iteration env f bw stop s = Step.next s1)
    (hex : env.exact)
    (hcfg : 0 < f.unwindEvery ∨ 0 < s.unwind)
    (hwrap : s.progress + f.unwindEvery < 2 ^ 64)
    (hup : bw = false → s.progress + f.unwindEvery - s.unwind ≤ stop)
    (hdown : bw = true → stop ≤ s.progress + f.unwindEvery - s.unwind) :
    s1.targets = s.targets ++ [s.progress + f.unwindEvery - s.unwind] ∧
      s1.execAtBlock = s.progress + f.unwindEvery - s.unwind ∧
      s1.unwind = s.unwind ∧
      (s.unwind = 0 → s1.unwinds = s.unwinds ∧ s1.progress = s.progress + f.unwindEvery) ∧
      (0 < s.unwind → 2 * s.unwind ≤ s.progress + f.unwindEvery →
        s1.unwinds = s.unwinds ++ [s.progress + f.unwindEvery - s.unwind - s.unwind] ∧
        s1.progress + 2 * s.unwind = s.progress + f.unwindEvery) := by
  unfold iteration at hnext
  split at hnext
  · cases hnext
  · split at hnext
    · cases hnext
    · have hgu : ∀ (_ : u64 (s.progress + f.unwindEvery) > s.unwind),
          subU64 (u64 (s.progress + f.unwindEvery)) s.unwind =
            s.progress + f.unwindEvery - s.unwind := by
        intro hg
        rw [u64_of_lt hwrap] at hg ⊢
        exact subU64_of_le (Nat.le_of_lt hg) hwrap
      have htarget : execTarget f.block f.unwindEvery s.unwind s.progress stop bw = none ∨
          execTarget f.block f.unwindEvery s.unwind s.progress stop bw =
            some (s.progress + f.unwindEvery - s.unwind, s.unwind) := by
        unfold execTarget
        have hc : f.unwindEvery > 0 ∨ s.unwind > 0 := hcfg
        simp only [hc, if_true]
        by_cases hg : u64 (s.progress + f.unwindEvery) > s.unwind
        · right
          simp only [hg, if_true, hgu hg]
          cases bw with
          | false =>
            have := hup rfl
            simp only [Bool.false_eq_true, if_false]
            rw [if_neg (by omega)]
          | true =>
            have := hdown rfl
            simp only [if_true]
            rw [if_neg (by omega)]
        · left
          simp [hg]
      simp only at hnext
      rcases htarget with ht | ht
      · rw [ht] at hnext
        cases hnext
      · rw [ht] at hnext
        simp only [hex s.n s.progress] at hnext
        split at hnext
        · cases hnext
        · split at hnext
          · cases hnext
          · cases hnext
          · split at hnext
            · rename_i hu0
              cases hnext
              refine ⟨rfl, rfl, rfl, ?_, ?_⟩
              · intro _
                refine ⟨rfl, ?_⟩
                show s.progress + f.unwindEvery - s.unwind = s.progress + f.unwindEvery
                omega
              · intro hpos
                omega
            · rename_i hu0
              split at hnext
              · cases hnext
              · cases hnext
                refine ⟨rfl, rfl, rfl, fun h0 => absurd h0 hu0, ?_⟩
                intro hpos h2
                have hsub : subU64 (s.progress + f.unwindEvery - s.unwind) s.unwind =
                    s.progress + f.unwindEvery - s.unwind - s.unwind :=
                  subU64_of_le (by omega) (by omega)
                simp only [hsub, UnwindTo, true_and]
                split <;> omega

/-- The first two iterations from progress 100 with cadence 10 and retreat 3
when the stop target is at least 112. -/
theorem scenario_two_iterations (env : Env) (f : Flags) (senderAtBlock : Nat)
    (hq : env.quiet) (hex : env.exact) (hue : f.unwindEvery = 10) (hu : f.unwind = 3)
    (hstop : 112 ≤ stopAt f senderAtBlock 100) :
    syncBySmallSteps env f senderAtBlock 100 1 =
        Outcome.running ⟨1, 107, 3, 104, [107], [104]⟩ ∧
      syncBySmallSteps env f senderAtBlock 100 2 =
        Outcome.running ⟨2, 111, 3, 108, [107, 111], [104, 108]⟩ := by
  obtain ⟨hstart, hn⟩ := hq
  have hbw : backward f = false := by simp [backward, hue, hu]
  have ht1 : execTarget f.block 10 3 100 (stopAt f senderAtBlock 100) false = some (107, 3) := by
    unfold execTarget
    rw [if_pos (by decide), if_pos (by decide)]
    simp only [Bool.false_eq_true, if_false]
    rw [if_neg (by
      have : subU64 (u64 (100 + 10)) 3 = 107 := by decide
      rw [this]; omega)]
    decide
  have ht2 : execTarget f.block 10 3 104 (stopAt f senderAtBlock 100) false = some (111, 3) := by
    unfold execTarget
    rw [if_pos (by decide), if_pos (by decide)]
    simp only [Bool.false_eq_true, if_false]
    rw [if_neg (by
      have : subU64 (u64 (104 + 10)) 3 = 111 := by decide
      rw [this]; omega)]
    decide
  have hl1 : loopCond false 100 (stopAt f senderAtBlock 100) = true := by
    simp [loopCond]; omega
  have hl2 : loopCond false 107 (stopAt f senderAtBlock 100) = true := by
    simp [loopCond]; omega
  have hi1 : iteration env f false (stopAt f senderAtBlock 100) ⟨0, 100, 3, 100, [], []⟩ =
      Step.next ⟨1, 107, 3, 104, [107], [104]⟩ := by
    unfold iteration
    simp only [(hn 0).1, (hn 0).2.1, (hn 0).2.2.1, (hn 0).2.2.2, hue, ht1, hex 0 100 107,
      Bool.false_eq_true, if_false]
    rw [if_neg (by omega)]
    decide
  have hi2 : iteration env f false (stopAt f senderAtBlock 100) ⟨1, 107, 3, 104, [107], [104]⟩ =
      Step.next ⟨2, 111, 3, 108, [107, 111], [104, 108]⟩ := by
    unfold iteration
    simp only [(hn 1).1, (hn 1).2.1, (hn 1).2.2.1, (hn 1).2.2.2, hue, ht2, hex 1 104 111,
      Bool.false_eq_true, if_false]
    rw [if_neg (by omega)]
    decide
  constructor
  · simp only [syncBySmallSteps, hstart, hu, hbw, syncLoop, hl1, hi1, if_true]
  · simp only [syncBySmallSteps, hstart, hu, hbw, syncLoop, hl1, hl2, hi1, hi2, if_true]

/-- Claim C6 as amended: on a run that is not cancelled and meets no error, with
an execution stage that moves the progress exactly to its target, starting from
progress 100 with `unwindEvery = 10`, `unwind = 3` and a stop target of at
least 112, the first iteration hands over the target 107 and unwinds to 104, and
the second hands over 111 and unwinds to 108. In general, an iteration that runs
to the bottom of the loop body with a cadence or retreat configured, no `uint64`
wrap in `execAt + unwindEvery` and a target not clamped by the stop target has
`execToBlock = execAt + unwindEvery - unwind`; with `unwind = 0` it requests no
unwind, and with `0 < unwind` and `2 * unwind <= execAt + unwindEvery` it
requests the unwind to `execToBlock - unwind`, so that the progress moves by
`unwindEvery - 2 * unwind`. -/
theorem stepper_scenario :
    (∀ (env : Env) (f : Flags) (senderAtBlock : Nat),
      env.quiet → env.exact → f.unwindEvery = 10 → f.unwind = 3 →
      112 ≤ stopAt f senderAtBlock 100 →
      syncBySmallSteps env f senderAtBlock 100 1 =
          Outcome.running ⟨1, 107, 3, 104, [107], [104]⟩ ∧
        syncBySmallSteps env f senderAtBlock 100 2 =
          Outcome.running ⟨2, 111, 3, 108, [107, 111], [104, 108]⟩) ∧
    (∀ (env : Env) (f : Flags) (bw : Bool) (stop : Nat) (s s1 : LoopState),
      iteration env f bw stop s = Step.next s1 →
      env.exact →
      (0 < f.unwindEvery ∨ 0 < s.unwind) →
      s.progress + f.unwindEvery < 2 ^ 64 →
      (bw = false → s.progress + f.unwindEvery - s.unwind ≤ stop) →
      (bw = true → stop ≤ s.progress + f.unwindEvery - s.unwind) →
      s1.targets = s.targets ++ [s.progress + f.unwindEvery - s.unwind] ∧
        s1.execAtBlock = s.progress + f.unwindEvery - s.unwind ∧
        s1.unwind = s.unwind ∧
        (s.unwind = 0 → s1.unwinds = s.unwinds ∧ s1.progress = s.progress + f.unwindEvery) ∧
        (0 < s.unwind → 2 * s.unwind ≤ s.progress + f.unwindEvery →
          s1.unwinds = s.unwinds ++ [s.progress + f.unwindEvery - s.unwind - s.unwind] ∧
          s1.progress + 2 * s.unwind = s.progress + f.unwindEvery)) :=
  ⟨scenario_two_iterations, iteration_unclamped⟩

/-- Claim C6 as amended, on the never-failing collaborators with the Senders
stage at block 200. -/
theorem stepper_scenario_witness :
    (exactEnv.quiet ∧ exactEnv.exact ∧ 112 ≤ stopAt ⟨0, 10, 3⟩ 200 100) ∧
      (syncBySmallSteps exactEnv ⟨0, 10, 3⟩ 200 100 1 =
          Outcome.running ⟨1, 107, 3, 104, [107], [104]⟩ ∧
        syncBySmallSteps exactEnv ⟨0, 10, 3⟩ 200 100 2 =
          Outcome.running ⟨2, 111, 3, 108, [107, 111], [104, 108]⟩) :=
  ⟨⟨exactEnv_quiet, exactEnv_exact, by decide⟩,
    stepper_scenario.1 exactEnv ⟨0, 10, 3⟩ 200 exactEnv_quiet exactEnv_exact rfl rfl (by decide)⟩

/-- Claim C8, the code at the failing input: with `unwindEvery = 5`,
`unwind = 4`, the Senders stage at 100 and progress 0, the first iteration
executes to block 1 and then passes to `UnwindTo` the point `1 - 4`, which wraps
on `uint64` to `2 ^ 64 - 3`, above the progress; and in only-one-unwind mode
with `unwind = 10` and progress 5 the stop target `5 - 10` wraps to
`2 ^ 64 - 5`. The sibling subtraction of line 257 is guarded by line 256: with
progress 5, cadence 1 and retreat 10 the loop breaks instead of subtracting. -/
theorem wrapped_unwind_point :
    exactEnv.quiet ∧ exactEnv.exact ∧ stopAt ⟨0, 5, 4⟩ 100 0 = 100 ∧
      syncBySmallSteps exactEnv ⟨0, 5, 4⟩ 100 0 1 =
        Outcome.running ⟨1, 1, 4, 1, [1], [2 ^ 64 - 3]⟩ ∧
      subU64 1 4 = 2 ^ 64 - 3 ∧ (1 : Nat) < 2 ^ 64 - 3 ∧
      onlyOneUnwind ⟨0, 0, 10⟩ = true ∧ stopAt ⟨0, 0, 10⟩ 100 5 = 2 ^ 64 - 5 ∧
      (5 : Nat) < 2 ^ 64 - 5 ∧
      execTarget 0 1 10 5 1 (backward ⟨0, 1, 10⟩) = none :=
  ⟨exactEnv_quiet, exactEnv_exact, by decide, by decide, by decide, by decide, by decide,
    by decide, by decide, by decide⟩

/-- A pass through the loop body requests at most one unwind, and only with a
positive `unwind`, to the `uint64` difference of the progress and `unwind`. -/
theorem iteration_unwinds (env : Env) (f : Flags) (bw : Bool) (stop : Nat) (s : LoopState) :
    (iteration env f bw stop s).state.unwinds = s.unwinds ∨
      (0 < (iteration env f bw stop s).state.unwind ∧
        (iteration env f bw stop s).state.unwinds = s.unwinds ++
          [subU64 (iteration env f bw stop s).state.execAtBlock
            (iteration env f bw stop s).state.unwind]) := by
  unfold iteration
  split
  · left; rfl
  · split
    · left; rfl
    · simp only
      split
      · left; rfl
      · split
        · left; rfl
        · split
          · left; rfl
          · split
            · left; rfl
            · left; rfl
            · split
              · left; rfl
              · rename_i hu0
                right
                split
                · exact ⟨Nat.pos_of_ne_zero hu0, rfl⟩
                · exact ⟨Nat.pos_of_ne_zero hu0, rfl⟩

/-- Claim C9 as stated fails: in only-one-unwind mode with `unwind = 10` and
progress `P = 10`, the loop is entered and left at once by the `break` of
line 259: no unwind is requested and the progress stays at 10. -/
theorem boundary_run_requests_no_unwind :
    steadyEnv.quiet ∧ steadyEnv.steady ∧ onlyOneUnwind ⟨0, 0, 10⟩ = true ∧ (10 : Nat) ≥ 10 ∧
      syncBySmallSteps steadyEnv ⟨0, 0, 10⟩ 100 10 2 =
        Outcome.returned ⟨0, 10, 10, 10, [], []⟩ (Res.ok ()) :=
  ⟨steadyEnv_quiet, steadyEnv_steady, by decide, by decide, by decide⟩

/-- Claim C9 as amended: in only-one-unwind mode (`block = 0`,
`unwindEvery = 0`, `unwind = N > 0`), for every progress `P` strictly greater
than `N`, on a run that is not cancelled and meets no error and with an
execution stage that leaves the progress unchanged when its target is not above
it, `syncBySmallSteps` returns within two iterations, having requested exactly
one unwind, to block `P - N`, having handed the execution stage no target other
than `P - N`, and with execution progress `P - N`. -/
theorem only_one_unwind (env : Env) (senderAtBlock P N fuel : Nat)
    (hq : env.quiet) (hst : env.steady) (hN : 0 < N) (hNP : N < P) (hP : P < 2 ^ 64)
    (hfuel : 2 ≤ fuel) :
    ∃ s, syncBySmallSteps env ⟨0, 0, N⟩ senderAtBlock P fuel = Outcome.returned s (Res.ok ()) ∧
      s.unwinds = [P - N] ∧ s.progress = P - N ∧ (∀ t ∈ s.targets, t = P - N) ∧
      s.targets ≠ [] := by
  obtain ⟨hstart, hn⟩ := hq
  obtain ⟨fuel, rfl⟩ : ∃ k, fuel = k + 2 := ⟨fuel - 2, by omega⟩
  have hone : onlyOneUnwind ⟨0, 0, N⟩ = true := by simp [onlyOneUnwind, hN]
  have hbw : backward ⟨0, 0, N⟩ = true := by simp [backward, hN]
  have hstop : stopAt ⟨0, 0, N⟩ senderAtBlock P = P - N := by
    simp only [stopAt, hone, if_true]
    exact subU64_of_le (Nat.le_of_lt hNP) hP
  have ht1 : execTarget 0 0 N P (P - N) true = some (P - N, N) := by
    unfold execTarget
    have h1 : u64 (P + 0) = P := u64_of_lt hP
    have h2 : subU64 P N = P - N := subU64_of_le (Nat.le_of_lt hNP) hP
    simp only [h1, h2]
    rw [if_pos (Or.inr hN), if_pos hNP]
    simp only [if_true]
    rw [if_neg (by omega)]
  have hl1 : loopCond true P (P - N) = true := by
    simp [loopCond]; omega
  have hsub : subU64 P N = P - N := subU64_of_le (Nat.le_of_lt hNP) hP
  have hunw : UnwindTo P (P - N) = P - N := by
    unfold UnwindTo; rw [if_neg (by omega)]
  have hi1 : iteration env ⟨0, 0, N⟩ true (P - N) ⟨0, P, N, P, [], []⟩ =
      Step.next ⟨1, P, N, P - N, [P - N], [P - N]⟩ := by
    unfold iteration
    simp only [(hn 0).1, (hn 0).2.1, (hn 0).2.2.1, (hn 0).2.2.2, ht1,
      hst 0 P (P - N) (Nat.sub_le _ _), Bool.false_eq_true, if_false, hsub, hunw]
    rw [if_neg (by omega), if_neg (by omega)]
    simp
  have hPN : P - N < 2 ^ 64 := by omega
  simp only [syncBySmallSteps, hstart, hbw, hstop, syncLoop, hl1, hi1, if_true]
  by_cases h2 : N < P - N
  · have ht2 : execTarget 0 0 N (P - N) (P - N) true = some (P - N, N) := by
      unfold execTarget
      have h1 : u64 (P - N + 0) = P - N := u64_of_lt hPN
      have h3 : subU64 (P - N) N = P - N - N := subU64_of_le (Nat.le_of_lt h2) hPN
      simp only [h1, h3]
      rw [if_pos (Or.inr hN), if_pos h2]
      simp only [if_true]
      rw [if_pos (by omega)]
    refine ⟨⟨1, P - N, N, P - N, [P - N, P - N], [P - N]⟩, ?_, rfl, rfl, ?_, by simp⟩
    · unfold iteration
      simp only [(hn 1).1, (hn 1).2.1, ht2, hst 1 (P - N) (P - N) (le_refl _), Bool.false_eq_true,
        if_false, if_true]
      rfl
    · intro t ht
      simp only [List.mem_cons, List.mem_singleton, List.not_mem_nil, or_false, or_self] at ht
      exact ht
  · have ht2 : execTarget 0 0 N (P - N) (P - N) true = none := by
      unfold execTarget
      have h1 : u64 (P - N + 0) = P - N := u64_of_lt hPN
      simp only [h1]
      rw [if_pos (Or.inr hN), if_neg h2]
    refine ⟨⟨1, P - N, N, P - N, [P - N], [P - N]⟩, ?_, rfl, rfl, ?_, by simp⟩
    · unfold iteration
      simp only [(hn 1).1, (hn 1).2.1, ht2, Bool.false_eq_true, if_false]
    · intro t ht
      simpa using ht

/-- Claim C9 as amended, at progress 50 with `unwind = 10`. -/
theorem only_one_unwind_witness :
    (steadyEnv.quiet ∧ steadyEnv.steady ∧ 0 < 10 ∧ 10 < 50 ∧ 50 < 2 ^ 64 ∧ 2 ≤ 5) ∧
      ∃ s, syncBySmallSteps steadyEnv ⟨0, 0, 10⟩ 100 50 5 = Outcome.returned s (Res.ok ()) ∧
        s.unwinds = [50 - 10] ∧ s.progress = 50 - 10 ∧ (∀ t ∈ s.targets, t = 50 - 10) ∧
        s.targets ≠ [] :=
  ⟨⟨steadyEnv_quiet, steadyEnv_steady, by decide, by decide, by norm_num, by decide⟩,
    only_one_unwind steadyEnv 100 50 10 5 steadyEnv_quiet steadyEnv_steady (by decide)
      (by decide) (by norm_num) (by decide)⟩

/-! ## `checkChanges` -/

/-- Replacing the change-set stored under a block keeps the keys of the map. -/
theorem mapRefresh_keys (m : ShadowMap) (b : Nat) (cs : Option ChangeSet) :
    (mapRefresh m b cs).map Prod.fst = m.map Prod.fst := by
  cases cs with
  | none => rfl
  | some c =>
    simp only [mapRefresh, List.map_map]
    apply List.map_congr_left
    intro p _
    simp only [Function.comp]
    split <;> rfl

/-- Replacing the change-set of a block above the horizon leaves the entries at or below it as they are. -/
theorem mapRefresh_below (m : ShadowMap) (b h : Nat) (cs : Option ChangeSet) (hb : h < b) :
    (mapRefresh m b cs).filter (fun p => decide (p.1 ≤ h)) =
      m.filter (fun p => decide (p.1 ≤ h)) := by
  cases cs with
  | none => rfl
  | some c =>
    simp only [mapRefresh]
    induction m with
    | nil => rfl
    | cons p m ih =>
      simp only [List.map_cons, List.filter_cons]
      by_cases hp : p.1 = b
      · have h1 : ¬ p.1 ≤ h := by omega
        have h2 : (p.1 == b) = true := by simpa using hp
        simp only [h2, if_true, h1, decide_False, Bool.false_eq_true, if_false, ih]
      · have h2 : (p.1 == b) = false := by simpa using hp
        simp only [h2, Bool.false_eq_true, if_false, ih]

/-- Deleting a block above the horizon leaves the entries at or below it as they are. -/
theorem mapDelete_below (m : ShadowMap) (b h : Nat) (hb : h < b) :
    (mapDelete m b).filter (fun p => decide (p.1 ≤ h)) = m.filter (fun p => decide (p.1 ≤ h)) := by
  simp only [mapDelete, List.filter_filter]
  apply List.filter_congr
  intro p _
  by_cases hp : p.1 ≤ h
  · have : p.1 ≠ b := by omega
    simp [hp, this]
  · simp [hp]

/-- A loop over no entry keeps every entry. -/
theorem kept_nil (h : Nat) (m : ShadowMap) : kept h [] m = m := by
  simp [kept]

/-- Visiting an entry at or below the horizon deletes nothing. -/
theorem kept_cons_below (h : Nat) (b : Nat) (cs : ChangeSet) (l m : ShadowMap) (hb : b ≤ h) :
    kept h ((b, cs) :: l) m = kept h l m := by
  simp only [kept]
  apply List.filter_congr
  intro p _
  by_cases hp : p.1 = b
  · have : ¬ h < p.1 := by omega
    simp [this]
  · have hpb : (p.1 == b) = false := by simpa using hp
    simp [hp, hpb]

/-- Visiting an entry above the horizon whose check passes deletes its block. -/
theorem kept_cons_above (h : Nat) (b : Nat) (cs : ChangeSet) (l m : ShadowMap) (hb : h < b) :
    kept h ((b, cs) :: l) m = kept h l (mapDelete m b) := by
  simp only [kept, mapDelete, List.filter_filter]
  apply List.filter_congr
  intro p _
  by_cases hp : p.1 = b
  · simp [hp, hb]
  · have hpb : (p.1 == b) = false := by simpa using hp
    simp [hp, hpb, bne]

/-- When every change-set check passes, the loop has deleted from both maps
exactly the blocks above the horizon that are keys of the account map, and has
run `checkChangeSet` for each of them, in map order. -/
theorem rangeLoop_ok (tx : Tx) (h : Nat) :
    ∀ (l : ShadowMap) (st st1 : ChangesState), rangeLoop tx h l st = (st1, Res.ok ()) →
      st1.account = kept h l st.account ∧ st1.storage = kept h l st.storage ∧
        st1.calls = st.calls ++ (above h l).map Call.changeSet := by
  intro l
  induction l with
  | nil =>
    intro st st1 hr
    simp only [rangeLoop, Prod.mk.injEq, and_true] at hr
    subst hr
    simp [kept_nil, above]
  | cons p l ih =>
    obtain ⟨b, cs⟩ := p
    intro st st1 hr
    unfold rangeLoop at hr
    by_cases hb : b ≤ h
    · simp only [hb, if_true] at hr
      have := ih st st1 hr
      have ha : above h ((b, cs) :: l) = above h l := by
        simp [above, List.filter_cons, Nat.not_lt.mpr hb]
      rw [kept_cons_below h b cs l _ hb, kept_cons_below h b cs l _ hb, ha]
      exact this
    · simp only [hb, if_false] at hr
      have hb2 : h < b := Nat.lt_of_not_le hb
      have ha : above h ((b, cs) :: l) = b :: above h l := by
        simp [above, List.filter_cons, hb2]
      split at hr
      · have := ih _ st1 hr
        rw [kept_cons_above h b cs l _ hb2, kept_cons_above h b cs l _ hb2, ha]
        simpa using this
      · simp at hr
      · simp at hr

/-- The loop leaves the entries at or below the horizon as they are. -/
theorem rangeLoop_frame (tx : Tx) (h : Nat) :
    ∀ (l : ShadowMap) (st : ChangesState),
      (rangeLoop tx h l st).1.account.filter (fun p => decide (p.1 ≤ h)) =
          st.account.filter (fun p => decide (p.1 ≤ h)) ∧
        (rangeLoop tx h l st).1.storage.filter (fun p => decide (p.1 ≤ h)) =
          st.storage.filter (fun p => decide (p.1 ≤ h)) := by
  intro l
  induction l with
  | nil => intro st; simp [rangeLoop]
  | cons p l ih =>
    obtain ⟨b, cs⟩ := p
    intro st
    unfold rangeLoop
    by_cases hb : b ≤ h
    · simp only [hb, if_true]
      exact ih st
    · simp only [hb, if_false]
      have hb2 : h < b := Nat.lt_of_not_le hb
      split
      · have := ih ⟨mapDelete st.account b, mapDelete st.storage b,
          st.out ++ (checkChangeSet tx b cs (mapGet st.storage b)).out,
          st.calls ++ [Call.changeSet b]⟩
        simp only [mapDelete_below _ b h hb2] at this
        exact this
      · simp only [mapRefresh_below _ b h _ hb2, and_self]
      · simp only [mapRefresh_below _ b h _ hb2, and_self]

/-- The loop runs `checkChangeSet` only for keys of the account map above the horizon. -/
theorem rangeLoop_calls (tx : Tx) (h : Nat) :
    ∀ (l : ShadowMap) (st : ChangesState),
      ∃ bs : List Nat, (rangeLoop tx h l st).1.calls = st.calls ++ bs.map Call.changeSet ∧
        ∀ b ∈ bs, h < b ∧ b ∈ l.map Prod.fst := by
  intro l
  induction l with
  | nil => intro st; exact ⟨[], by simp [rangeLoop], by simp⟩
  | cons p l ih =>
    obtain ⟨b, cs⟩ := p
    intro st
    unfold rangeLoop
    by_cases hb : b ≤ h
    · simp only [hb, if_true]
      obtain ⟨bs, h1, h2⟩ := ih st
      exact ⟨bs, h1, fun x hx => ⟨(h2 x hx).1, List.mem_cons_of_mem _ (h2 x hx).2⟩⟩
    · simp only [hb, if_false]
      have hb2 : h < b := Nat.lt_of_not_le hb
      split
      · obtain ⟨bs, h1, h2⟩ := ih ⟨mapDelete st.account b, mapDelete st.storage b,
          st.out ++ (checkChangeSet tx b cs (mapGet st.storage b)).out,
          st.calls ++ [Call.changeSet b]⟩
        refine ⟨b :: bs, by simpa using h1, ?_⟩
        intro x hx
        rcases List.mem_cons.mp hx with rfl | hx
        · exact ⟨hb2, by simp⟩
        · exact ⟨(h2 x hx).1, List.mem_cons_of_mem _ (h2 x hx).2⟩
      · exact ⟨[b], by simp, by simp [hb2]⟩
      · exact ⟨[b], by simp, by simp [hb2]⟩

/-- When a change-set check fails, it is the last check run and the entry of
its block is still in the account map. -/
theorem rangeLoop_fail (tx : Tx) (h : Nat) :
    ∀ (l : ShadowMap) (st : ChangesState), (l.map Prod.fst).Nodup →
      (∀ b ∈ l.map Prod.fst, b ∈ st.account.map Prod.fst) →
      (rangeLoop tx h l st).2 ≠ Res.ok () →
      ∃ b, (rangeLoop tx h l st).1.calls.getLast? = some (Call.changeSet b) ∧ h < b ∧
        b ∈ (rangeLoop tx h l st).1.account.map Prod.fst := by
  intro l
  induction l with
  | nil => intro st _ _ hne; simp [rangeLoop] at hne
  | cons p l ih =>
    obtain ⟨b, cs⟩ := p
    intro st hnd hsub hne
    have hnd2 : (l.map Prod.fst).Nodup := (List.nodup_cons.mp hnd).2
    have hbl : b ∉ l.map Prod.fst := (List.nodup_cons.mp hnd).1
    unfold rangeLoop at hne ⊢
    by_cases hb : b ≤ h
    · simp only [hb, if_true] at hne ⊢
      exact ih st hnd2 (fun x hx => hsub x (List.mem_cons_of_mem _ hx)) hne
    · simp only [hb, if_false] at hne ⊢
      have hb2 : h < b := Nat.lt_of_not_le hb
      have hbin : b ∈ st.account.map Prod.fst := hsub b (by simp)
      cases hres : (checkChangeSet tx b cs (mapGet st.storage b)).res with
      | ok u =>
        cases u
        simp only [hres] at hne ⊢
        apply ih _ hnd2 _ hne
        intro x hx
        have hx1 := hsub x (List.mem_cons_of_mem _ hx)
        have hxb : x ≠ b := fun hxb => hbl (hxb ▸ hx)
        simp only [mapDelete, List.mem_map, List.mem_filter, bne_iff_ne, ne_eq] at hx1 ⊢
        obtain ⟨q, hq, rfl⟩ := hx1
        exact ⟨q, ⟨hq, hxb⟩, rfl⟩
      | error m =>
        simp only [hres]
        exact ⟨b, by simp, hb2, by rw [mapRefresh_keys]; exact hbin⟩
      | panic m =>
        simp only [hres]
        exact ⟨b, by simp, hb2, by rw [mapRefresh_keys]; exact hbin⟩

/-- The horizon computed at lines 377-380 is the maximum of its two arguments. -/
theorem horizon_eq (execAtBlock prunedTo : Nat) :
    (if prunedTo > execAtBlock then prunedTo else execAtBlock) = max execAtBlock prunedTo := by
  split <;> omega

/-- Claim C10 as stated fails. First, on a store whose change-set for block 50
matches the shadow but whose history index is empty, `checkChanges` returns the
`checkHistory` error for block 50 after the entry of block 50 has been removed.
Second, a storage-map entry for block 7 with no account-map entry for that
block is still there after `checkChanges` has returned no error with horizon 0.
Third, when the change-set check of block 5 fails, the check of block 6, also
above the horizon, and both history checks are never run. -/
theorem checkChanges_counterexamples :
    checkChanges sampleHelpers [(50, ⟨[⟨List.replicate 20 0xAA, [0x01]⟩]⟩)] tx50 [] 0 0 =
        (⟨[], [], [], [Call.changeSet 50, Call.history AccountChangeSetBucket 0]⟩,
          Res.error (historyMsg AccountChangeSetBucket 50 (List.replicate 20 0xAA))) ∧
      checkChanges sampleHelpers [] emptyTx [(7, ⟨[⟨[1], [2]⟩]⟩)] 0 0 =
        (⟨[], [(7, ⟨[⟨[1], [2]⟩]⟩)], [],
            [Call.history AccountChangeSetBucket 0, Call.history StorageChangeSetBucket 0]⟩,
          Res.ok ()) ∧
      checkChanges sampleHelpers [(5, ⟨[⟨[1], [2]⟩]⟩), (6, ⟨[]⟩)] emptyTx [] 0 0 =
        (⟨[(5, ⟨[⟨[1], [2]⟩]⟩), (6, ⟨[]⟩)], [], [], [Call.changeSet 5]⟩,
          Res.error "db has less changets") := by
  refine ⟨by decide, by decide, by decide⟩

/-- What `checkChanges` runs and leaves behind, whatever the checks answer:
it runs `checkChangeSet` only for keys of the account map above the horizon and
`checkHistory` only from the horizon, and it leaves the entries at or below the
horizon as they are. -/
theorem checkChanges_calls_frame (hp : Helpers) (expectedAccountChanges : ShadowMap) (tx : Tx)
    (expectedStorageChanges : ShadowMap) (execAtBlock prunedTo : Nat) :
    (∀ c ∈ (checkChanges hp expectedAccountChanges tx expectedStorageChanges
          execAtBlock prunedTo).1.calls,
        (∃ b, c = Call.changeSet b ∧ max execAtBlock prunedTo < b ∧
          b ∈ expectedAccountChanges.map Prod.fst) ∨
        c = Call.history AccountChangeSetBucket (max execAtBlock prunedTo) ∨
        c = Call.history StorageChangeSetBucket (max execAtBlock prunedTo)) ∧
    ((checkChanges hp expectedAccountChanges tx expectedStorageChanges
          execAtBlock prunedTo).2 = Res.ok () →
      (checkChanges hp expectedAccountChanges tx expectedStorageChanges
          execAtBlock prunedTo).1.calls =
        (above (max execAtBlock prunedTo) expectedAccountChanges).map Call.changeSet ++
          [Call.history AccountChangeSetBucket (max execAtBlock prunedTo),
           Call.history StorageChangeSetBucket (max execAtBlock prunedTo)]) ∧
    (Call.history AccountChangeSetBucket (max execAtBlock prunedTo) ∈
        (checkChanges hp expectedAccountChanges tx expectedStorageChanges
          execAtBlock prunedTo).1.calls →
      (checkChanges hp expectedAccountChanges tx expectedStorageChanges
          execAtBlock prunedTo).1.account =
        expectedAccountChanges.filter (fun p => decide (p.1 ≤ max execAtBlock prunedTo)) ∧
      (checkChanges hp expectedAccountChanges tx expectedStorageChanges
          execAtBlock prunedTo).1.storage =
        expectedStorageChanges.filter (fun p =>
          !(decide (max execAtBlock prunedTo < p.1) &&
            (expectedAccountChanges.map Prod.fst).contains p.1))) ∧
    ((checkChanges hp expectedAccountChanges tx expectedStorageChanges
          execAtBlock prunedTo).1.account.filter
            (fun p => decide (p.1 ≤ max execAtBlock prunedTo)) =
        expectedAccountChanges.filter (fun p => decide (p.1 ≤ max execAtBlock prunedTo)) ∧
      (checkChanges hp expectedAccountChanges tx expectedStorageChanges
          execAtBlock prunedTo).1.storage.filter
            (fun p => decide (p.1 ≤ max execAtBlock prunedTo)) =
        expectedStorageChanges.filter (fun p => decide (p.1 ≤ max execAtBlock prunedTo))) ∧
    ((expectedAccountChanges.map Prod.fst).Nodup →
      ∀ b, (checkChanges hp expectedAccountChanges tx expectedStorageChanges
          execAtBlock prunedTo).1.calls.getLast? = some (Call.changeSet b) →
        (checkChanges hp expectedAccountChanges tx expectedStorageChanges
          execAtBlock prunedTo).2 ≠ Res.ok () ∧
        b ∈ (checkChanges hp expectedAccountChanges tx expectedStorageChanges
          execAtBlock prunedTo).1.account.map Prod.fst) := by
  unfold checkChanges
  simp only [horizon_eq]
  generalize max execAtBlock prunedTo = h
  have hok := rangeLoop_ok tx h expectedAccountChanges
    ⟨expectedAccountChanges, expectedStorageChanges, [], []⟩
  have hframe := rangeLoop_frame tx h expectedAccountChanges
    ⟨expectedAccountChanges, expectedStorageChanges, [], []⟩
  have hcalls := rangeLoop_calls tx h expectedAccountChanges
    ⟨expectedAccountChanges, expectedStorageChanges, [], []⟩
  have hfail := rangeLoop_fail tx h expectedAccountChanges
    ⟨expectedAccountChanges, expectedStorageChanges, [], []⟩
  have hkept : kept h expectedAccountChanges expectedAccountChanges =
      expectedAccountChanges.filter (fun p => decide (p.1 ≤ h)) := by
    unfold kept
    apply List.filter_congr
    intro p hpmem
    have hin : p.1 ∈ expectedAccountChanges.map Prod.fst := List.mem_map_of_mem _ hpmem
    by_cases hle : p.1 ≤ h
    · simp [hle, Nat.not_lt.mpr hle]
    · simp [hle, Nat.lt_of_not_le hle, hin]
  generalize rangeLoop tx h expectedAccountChanges
    ⟨expectedAccountChanges, expectedStorageChanges, [], []⟩ = r at hok hframe hcalls hfail
  obtain ⟨st, res⟩ := r
  obtain ⟨bs, hbs, hbsmem⟩ := hcalls
  simp only [List.nil_append] at hbs
  have hnohist : ∀ x, Call.history x h ∉ st.calls := by
    intro x hx
    rw [hbs] at hx
    simp at hx
  have hlast : ∀ b, (st.calls ++ [Call.history AccountChangeSetBucket h]).getLast? ≠
      some (Call.changeSet b) := by
    intro b; simp
  have hlast2 : ∀ b, ((st.calls ++ [Call.history AccountChangeSetBucket h]) ++
      [Call.history StorageChangeSetBucket h]).getLast? ≠ some (Call.changeSet b) := by
    intro b; simp
  have hmemcalls : ∀ c ∈ st.calls, ∃ b, c = Call.changeSet b ∧ h < b ∧
      b ∈ expectedAccountChanges.map Prod.fst := by
    intro c hc
    rw [hbs] at hc
    obtain ⟨b, hb, rfl⟩ := List.mem_map.mp hc
    exact ⟨b, rfl, hbsmem b hb⟩
  cases res with
  | error m =>
    dsimp only at hframe ⊢
    refine ⟨fun c hc => Or.inl (hmemcalls c hc), fun h1 => (by cases h1),
      fun h1 => absurd h1 (hnohist _), hframe, fun hnd b hb => ?_⟩
    obtain ⟨b2, hb2, _, hin⟩ := hfail hnd (fun _ hx => hx) (by simp)
    simp only at hb hb2 hin ⊢
    rw [hb] at hb2
    cases hb2
    exact ⟨by simp, hin⟩
  | panic m =>
    dsimp only at hframe ⊢
    refine ⟨fun c hc => Or.inl (hmemcalls c hc), fun h1 => (by cases h1),
      fun h1 => absurd h1 (hnohist _), hframe, fun hnd b hb => ?_⟩
    obtain ⟨b2, hb2, _, hin⟩ := hfail hnd (fun _ hx => hx) (by simp)
    simp only at hb hb2 hin ⊢
    rw [hb] at hb2
    cases hb2
    exact ⟨by simp, hin⟩
  | ok u =>
    cases u
    obtain ⟨hacc, hsto, hcl⟩ := hok st rfl
    simp only [List.nil_append] at hcl
    simp only at hacc hsto hframe
    rw [hkept] at hacc
    have hmem1 : ∀ c ∈ st.calls ++ [Call.history AccountChangeSetBucket h],
        (∃ b, c = Call.changeSet b ∧ h < b ∧ b ∈ expectedAccountChanges.map Prod.fst) ∨
        c = Call.history AccountChangeSetBucket h ∨
        c = Call.history StorageChangeSetBucket h := by
      intro c hc
      rcases List.mem_append.mp hc with hc | hc
      · exact Or.inl (hmemcalls c hc)
      · exact Or.inr (Or.inl (by simpa using hc))
    dsimp only
    cases hh : checkHistory hp tx AccountChangeSetBucket h with
    | error m =>
      dsimp only
      refine ⟨hmem1, fun h1 => (by cases h1), fun _ => ⟨hacc, hsto⟩, hframe,
        fun _ b hb => absurd hb (hlast b)⟩
    | panic m =>
      dsimp only
      refine ⟨hmem1, fun h1 => (by cases h1), fun _ => ⟨hacc, hsto⟩, hframe,
        fun _ b hb => absurd hb (hlast b)⟩
    | ok u =>
      cases u
      dsimp only
      refine ⟨?_, fun _ => ?_, fun _ => ⟨hacc, hsto⟩, hframe, fun _ b hb => absurd hb (hlast2 b)⟩
      · intro c hc
        rcases List.mem_append.mp hc with hc | hc
        · exact hmem1 c hc
        · exact Or.inr (Or.inr (by simpa using hc))
      · simp only [hcl, List.append_assoc, List.singleton_append]

/-- Deleting one block from a map does not change what is stored under another. -/
theorem mapGet_delete (m : ShadowMap) (b c : Nat) (hbc : b ≠ c) :
    mapGet (mapDelete m c) b = mapGet m b := by
  unfold mapGet mapDelete
  induction m with
  | nil => rfl
  | cons p m ih =>
    obtain ⟨k, v⟩ := p
    by_cases hk : k = c
    · subst hk
      have h1 : (b == k) = false := by simpa using hbc
      simp only [List.filter_cons, bne_self_eq_false, Bool.false_eq_true, if_false, ih,
        List.lookup_cons, h1]
    · have h2 : (k != c) = true := by simpa using hk
      simp only [List.filter_cons, h2, if_true, List.lookup_cons, ih]

/-- The loop returns no error exactly when `checkChangeSet` passes for every
entry of the account map above the horizon. -/
theorem rangeLoop_res (tx : Tx) (h : Nat) :
    ∀ (l : ShadowMap) (st : ChangesState), (l.map Prod.fst).Nodup →
      ((rangeLoop tx h l st).2 = Res.ok () ↔
        ∀ p ∈ l, h < p.1 → (checkChangeSet tx p.1 p.2 (mapGet st.storage p.1)).res = Res.ok ()) := by
  intro l
  induction l with
  | nil => intro st _; simp [rangeLoop]
  | cons q l ih =>
    obtain ⟨b, cs⟩ := q
    intro st hnd
    have hnd2 : (l.map Prod.fst).Nodup := (List.nodup_cons.mp hnd).2
    have hbl : b ∉ l.map Prod.fst := (List.nodup_cons.mp hnd).1
    unfold rangeLoop
    by_cases hb : b ≤ h
    · simp only [hb, if_true, ih st hnd2, List.mem_cons, forall_eq_or_imp]
      constructor
      · intro hall
        exact ⟨fun hlt => absurd hlt (Nat.not_lt.mpr hb), hall⟩
      · intro hall
        exact hall.2
    · simp only [hb, if_false]
      have hb2 : h < b := Nat.lt_of_not_le hb
      have hrest : ∀ st2 : ChangesState, st2.storage = mapDelete st.storage b →
          ((∀ p ∈ l, h < p.1 →
              (checkChangeSet tx p.1 p.2 (mapGet st2.storage p.1)).res = Res.ok ()) ↔
            ∀ p ∈ l, h < p.1 →
              (checkChangeSet tx p.1 p.2 (mapGet st.storage p.1)).res = Res.ok ()) := by
        intro st2 hst2
        have hget : ∀ p ∈ l, mapGet st2.storage p.1 = mapGet st.storage p.1 := by
          intro p hp
          rw [hst2]
          apply mapGet_delete
          intro hpb
          exact hbl (hpb ▸ List.mem_map_of_mem Prod.fst hp)
        constructor
        · intro hall p hp hlt
          rw [← hget p hp]; exact hall p hp hlt
        · intro hall p hp hlt
          rw [hget p hp]; exact hall p hp hlt
      cases hres : (checkChangeSet tx b cs (mapGet st.storage b)).res with
      | ok u =>
        cases u
        have hr2 := hrest ⟨mapDelete st.account b, mapDelete st.storage b,
          st.out ++ (checkChangeSet tx b cs (mapGet st.storage b)).out,
          st.calls ++ [Call.changeSet b]⟩ rfl
        simp only [hres]
        rw [ih _ hnd2, hr2]
        simp only [List.mem_cons, forall_eq_or_imp, hres]
        constructor
        · intro hall; exact ⟨fun _ => trivial, hall⟩
        · intro hall; exact hall.2
      | error m =>
        simp only [List.mem_cons, forall_eq_or_imp, hres, reduceCtorEq, false_iff, not_and]
        intro hhead
        exact absurd (hhead hb2) (by simp)
      | panic m =>
        simp only [List.mem_cons, forall_eq_or_imp, hres, reduceCtorEq, false_iff, not_and]
        intro hhead
        exact absurd (hhead hb2) (by simp)

/-- The loop stops at the first entry above the horizon whose `checkChangeSet`
fails: it returns that failure, has run the checks up to and including that
one, and has deleted the blocks checked before it and no other. -/
theorem rangeLoop_first_fail (tx : Tx) (h : Nat) (b : Nat) (cs : ChangeSet) (post : ShadowMap) :
    ∀ (pre : ShadowMap) (st : ChangesState),
      ((pre ++ (b, cs) :: post).map Prod.fst).Nodup →
      (∀ p ∈ pre, h < p.1 →
        (checkChangeSet tx p.1 p.2 (mapGet st.storage p.1)).res = Res.ok ()) →
      h < b →
      (checkChangeSet tx b cs (mapGet st.storage b)).res ≠ Res.ok () →
      (rangeLoop tx h (pre ++ (b, cs) :: post) st).2 =
          (checkChangeSet tx b cs (mapGet st.storage b)).res ∧
        (rangeLoop tx h (pre ++ (b, cs) :: post) st).1.calls =
          st.calls ++ (above h pre).map Call.changeSet ++ [Call.changeSet b] ∧
        (rangeLoop tx h (pre ++ (b, cs) :: post) st).1.account =
          mapRefresh (kept h pre st.account) b
            (some (checkChangeSet tx b cs (mapGet st.storage b)).account) ∧
        (rangeLoop tx h (pre ++ (b, cs) :: post) st).1.storage =
          mapRefresh (kept h pre st.storage) b
            (checkChangeSet tx b cs (mapGet st.storage b)).storage := by
  intro pre
  induction pre with
  | nil =>
    intro st _ _ hb hfail
    simp only [List.nil_append]
    unfold rangeLoop
    rw [if_neg (Nat.not_le.mpr hb)]
    cases hres : (checkChangeSet tx b cs (mapGet st.storage b)).res with
    | ok u => cases u; exact absurd hres hfail
    | error m =>
      simp only [hres]
      simp [kept_nil, above]
    | panic m =>
      simp only [hres]
      simp [kept_nil, above]
  | cons q pre ih =>
    obtain ⟨c, ccs⟩ := q
    intro st hnd hpre hb hfail
    have hnd1 := List.nodup_cons.mp (by simpa using hnd :
      (c :: (pre ++ (b, cs) :: post).map Prod.fst).Nodup)
    have hnd2 : ((pre ++ (b, cs) :: post).map Prod.fst).Nodup := hnd1.2
    have hcb : b ≠ c := by
      intro hbc
      apply hnd1.1
      rw [← hbc]
      simp
    have hcpre : ∀ p ∈ pre, p.1 ≠ c := by
      intro p hp hpc
      apply hnd1.1
      rw [← hpc]
      exact List.mem_map_of_mem Prod.fst (List.mem_append_left _ hp)
    simp only [List.cons_append]
    unfold rangeLoop
    by_cases hc : c ≤ h
    · simp only [hc, if_true]
      have ha : above h ((c, ccs) :: pre) = above h pre := by
        simp [above, List.filter_cons, Nat.not_lt.mpr hc]
      rw [ha, kept_cons_below h c ccs pre _ hc, kept_cons_below h c ccs pre _ hc]
      exact ih st hnd2 (fun p hp => hpre p (List.mem_cons_of_mem _ hp)) hb hfail
    · simp only [hc, if_false]
      have hc2 : h < c := Nat.lt_of_not_le hc
      have hok := hpre (c, ccs) (List.mem_cons_self _ _) hc2
      simp only at hok
      simp only [hok]
      have ha : above h ((c, ccs) :: pre) = c :: above h pre := by
        simp [above, List.filter_cons, hc2]
      have hgetb : mapGet (mapDelete st.storage c) b = mapGet st.storage b :=
        mapGet_delete _ _ _ hcb
      have := ih ⟨mapDelete st.account c, mapDelete st.storage c,
          st.out ++ (checkChangeSet tx c ccs (mapGet st.storage c)).out,
          st.calls ++ [Call.changeSet c]⟩ hnd2
        (by
          intro p hp hlt
          simp only
          rw [mapGet_delete _ _ _ (hcpre p hp)]
          exact hpre p (List.mem_cons_of_mem _ hp) hlt)
        hb (by simpa only [hgetb] using hfail)
      simp only [hgetb] at this
      rw [ha, kept_cons_above h c ccs pre _ hc2, kept_cons_above h c ccs pre _ hc2]
      simpa using this

/-- The keys that the loop over `l` leaves in a map. -/
theorem mem_kept_keys (h : Nat) (l m : ShadowMap) (k : Nat) :
    k ∈ (kept h l m).map Prod.fst ↔
      k ∈ m.map Prod.fst ∧ ¬ (h < k ∧ k ∈ l.map Prod.fst) := by
  simp only [kept, List.mem_map, List.mem_filter, Bool.not_eq_true', Bool.and_eq_false_imp,
    decide_eq_true_eq, List.contains_eq_any_beq, List.any_eq_false, beq_iff_eq]
  constructor
  · rintro ⟨p, ⟨hp, hcond⟩, rfl⟩
    refine ⟨⟨p, hp, rfl⟩, ?_⟩
    rintro ⟨hlt, q, hq, hqp⟩
    exact hcond hlt q.1 ⟨q, hq, rfl⟩ hqp.symm
  · rintro ⟨⟨p, hp, rfl⟩, hcond⟩
    refine ⟨p, ⟨hp, ?_⟩, rfl⟩
    intro hlt x hx hpx
    obtain ⟨q, hq, rfl⟩ := hx
    exact hcond ⟨hlt, q, hq, hpx.symm⟩

/-- When a change-set check fails, `checkChanges` returns what the loop returned. -/
theorem checkChanges_of_fail (hp : Helpers) (acc : ShadowMap) (tx : Tx) (sto : ShadowMap)
    (execAtBlock prunedTo : Nat)
    (hfail : (rangeLoop tx (max execAtBlock prunedTo) acc ⟨acc, sto, [], []⟩).2 ≠ Res.ok ()) :
    checkChanges hp acc tx sto execAtBlock prunedTo =
      rangeLoop tx (max execAtBlock prunedTo) acc ⟨acc, sto, [], []⟩ := by
  unfold checkChanges
  simp only [horizon_eq]
  generalize rangeLoop tx (max execAtBlock prunedTo) acc ⟨acc, sto, [], []⟩ = R at hfail
  obtain ⟨st, res⟩ := R
  cases res with
  | ok u => cases u; exact absurd rfl hfail
  | error m => rfl
  | panic m => rfl

/-- When every change-set check passes, `checkChanges` has deleted the checked
blocks and returns the verdict of the history checks. -/
theorem checkChanges_of_pass (hp : Helpers) (acc : ShadowMap) (tx : Tx) (sto : ShadowMap)
    (execAtBlock prunedTo : Nat)
    (hpass : (rangeLoop tx (max execAtBlock prunedTo) acc ⟨acc, sto, [], []⟩).2 = Res.ok ()) :
    (checkChanges hp acc tx sto execAtBlock prunedTo).1.account =
        acc.filter (fun p => decide (p.1 ≤ max execAtBlock prunedTo)) ∧
      (checkChanges hp acc tx sto execAtBlock prunedTo).1.storage =
        sto.filter (fun p => !(decide (max execAtBlock prunedTo < p.1) &&
          (acc.map Prod.fst).contains p.1)) ∧
      (checkHistory hp tx AccountChangeSetBucket (max execAtBlock prunedTo) ≠ Res.ok () →
        (checkChanges hp acc tx sto execAtBlock prunedTo).2 =
            checkHistory hp tx AccountChangeSetBucket (max execAtBlock prunedTo) ∧
          (checkChanges hp acc tx sto execAtBlock prunedTo).1.calls =
            ((acc.map Prod.fst).filter fun k => decide (max execAtBlock prunedTo < k)).map
                Call.changeSet ++
              [Call.history AccountChangeSetBucket (max execAtBlock prunedTo)]) ∧
      (checkHistory hp tx AccountChangeSetBucket (max execAtBlock prunedTo) = Res.ok () →
        (checkChanges hp acc tx sto execAtBlock prunedTo).2 =
            checkHistory hp tx StorageChangeSetBucket (max execAtBlock prunedTo) ∧
          (checkChanges hp acc tx sto execAtBlock prunedTo).1.calls =
            ((acc.map Prod.fst).filter fun k => decide (max execAtBlock prunedTo < k)).map
                Call.changeSet ++
              [Call.history AccountChangeSetBucket (max execAtBlock prunedTo),
               Call.history StorageChangeSetBucket (max execAtBlock prunedTo)]) := by
  have hok := rangeLoop_ok tx (max execAtBlock prunedTo) acc ⟨acc, sto, [], []⟩
  have hkept : kept (max execAtBlock prunedTo) acc acc =
      acc.filter (fun p => decide (p.1 ≤ max execAtBlock prunedTo)) := by
    unfold kept
    apply List.filter_congr
    intro p hpmem
    have hin : p.1 ∈ acc.map Prod.fst := List.mem_map_of_mem _ hpmem
    by_cases hle : p.1 ≤ max execAtBlock prunedTo
    · simp [hle, Nat.not_lt.mpr hle]
    · simp [hle, Nat.lt_of_not_le hle, hin]
  unfold checkChanges
  simp only [horizon_eq]
  generalize max execAtBlock prunedTo = h at *
  generalize rangeLoop tx h acc ⟨acc, sto, [], []⟩ = R at hpass hok
  obtain ⟨st, res⟩ := R
  simp only at hpass
  subst hpass
  obtain ⟨hacc, hsto, hcl⟩ := hok st rfl
  simp only [List.nil_append] at hcl
  simp only at hacc hsto
  rw [hkept] at hacc
  dsimp only
  cases hh : checkHistory hp tx AccountChangeSetBucket h with
  | error m =>
    dsimp only
    exact ⟨hacc, hsto, fun _ => ⟨rfl, by rw [hcl]; rfl⟩, fun hx => by cases hx⟩
  | panic m =>
    dsimp only
    exact ⟨hacc, hsto, fun _ => ⟨rfl, by rw [hcl]; rfl⟩, fun hx => by cases hx⟩
  | ok u =>
    cases u
    dsimp only
    refine ⟨hacc, hsto, fun hx => absurd rfl hx, fun _ => ⟨rfl, ?_⟩⟩
    rw [hcl]
    simp [above]

/-- Claim C10 as amended, for shadow maps with distinct keys and
`h = max(execAtBlock, prunedTo)`. `checkChanges` returns no error if and only if
`checkChangeSet` passes for every entry of the account map with block number
above `h` and `checkHistory` from `h` passes for the account and for the storage
domain. If the first entry above `h`, in map order, whose `checkChangeSet` fails
is that of block `b`, the failure of that check is returned, the checks run are
those of the earlier blocks above `h` and of `b`, and only those earlier blocks
have been removed from the two maps: `b` is still a key of the account map. If
no `checkChangeSet` fails, every block number above `h` that is a key of the
account map has been removed from both maps and no other entry has, and the
result is the verdict of `checkHistory` for the account domain or, when that
passes, for the storage domain, run in that order after the change-set checks.
Entries with block number at most `h` are always left unchanged, and
`checkChangeSet` is never run for a block at or below `h`. -/
theorem checkChanges_verdicts (hp : Helpers) (acc : ShadowMap) (tx : Tx) (sto : ShadowMap)
    (execAtBlock prunedTo h : Nat) (r : ChangesState × Res Unit)
    (hnd : (acc.map Prod.fst).Nodup)
    (hh : max execAtBlock prunedTo = h)
    (hr : checkChanges hp acc tx sto execAtBlock prunedTo = r) :
    (r.2 = Res.ok () ↔
      (∀ p ∈ acc, h < p.1 → (checkChangeSet tx p.1 p.2 (mapGet sto p.1)).res = Res.ok ()) ∧
        checkHistory hp tx AccountChangeSetBucket h = Res.ok () ∧
        checkHistory hp tx StorageChangeSetBucket h = Res.ok ()) ∧
    (∀ pre b cs post, acc = pre ++ (b, cs) :: post →
      (∀ p ∈ pre, h < p.1 → (checkChangeSet tx p.1 p.2 (mapGet sto p.1)).res = Res.ok ()) →
      h < b → (checkChangeSet tx b cs (mapGet sto b)).res ≠ Res.ok () →
      r.2 = (checkChangeSet tx b cs (mapGet sto b)).res ∧
        r.1.calls = ((pre.map Prod.fst).filter fun k => decide (h < k)).map Call.changeSet ++
          [Call.changeSet b] ∧
        b ∈ r.1.account.map Prod.fst ∧
        (∀ k, k ∈ r.1.account.map Prod.fst ↔
          k ∈ acc.map Prod.fst ∧ ¬ (h < k ∧ k ∈ pre.map Prod.fst)) ∧
        (∀ k, k ∈ r.1.storage.map Prod.fst ↔
          k ∈ sto.map Prod.fst ∧ ¬ (h < k ∧ k ∈ pre.map Prod.fst))) ∧
    ((∀ p ∈ acc, h < p.1 → (checkChangeSet tx p.1 p.2 (mapGet sto p.1)).res = Res.ok ()) →
      r.1.account = acc.filter (fun p => decide (p.1 ≤ h)) ∧
        r.1.storage =
          sto.filter (fun p => !(decide (h < p.1) && (acc.map Prod.fst).contains p.1)) ∧
        (checkHistory hp tx AccountChangeSetBucket h ≠ Res.ok () →
          r.2 = checkHistory hp tx AccountChangeSetBucket h ∧
            r.1.calls = ((acc.map Prod.fst).filter fun k => decide (h < k)).map Call.changeSet ++
              [Call.history AccountChangeSetBucket h]) ∧
        (checkHistory hp tx AccountChangeSetBucket h = Res.ok () →
          r.2 = checkHistory hp tx StorageChangeSetBucket h ∧
            r.1.calls = ((acc.map Prod.fst).filter fun k => decide (h < k)).map Call.changeSet ++
              [Call.history AccountChangeSetBucket h, Call.history StorageChangeSetBucket h])) ∧
    (r.1.account.filter (fun p => decide (p.1 ≤ h)) = acc.filter (fun p => decide (p.1 ≤ h)) ∧
      r.1.storage.filter (fun p => decide (p.1 ≤ h)) = sto.filter (fun p => decide (p.1 ≤ h))) ∧
    (∀ c ∈ r.1.calls,
      (∃ b, c = Call.changeSet b ∧ h < b ∧ b ∈ acc.map Prod.fst) ∨
        c = Call.history AccountChangeSetBucket h ∨ c = Call.history StorageChangeSetBucket h) := by
  subst hh hr
  have hold := checkChanges_calls_frame hp acc tx sto execAtBlock prunedTo
  have hres := rangeLoop_res tx (max execAtBlock prunedTo) acc ⟨acc, sto, [], []⟩ hnd
  simp only at hres
  refine ⟨?_, ?_, ?_, hold.2.2.2.1, hold.1⟩
  · by_cases hpass : (rangeLoop tx (max execAtBlock prunedTo) acc ⟨acc, sto, [], []⟩).2 = Res.ok ()
    · have hp2 := checkChanges_of_pass hp acc tx sto execAtBlock prunedTo hpass
      have hall := hres.mp hpass
      by_cases hacc : checkHistory hp tx AccountChangeSetBucket (max execAtBlock prunedTo) =
          Res.ok ()
      · rw [(hp2.2.2.2 hacc).1]
        exact ⟨fun hs => ⟨hall, hacc, hs⟩, fun hs => hs.2.2⟩
      · rw [(hp2.2.2.1 hacc).1]
        exact ⟨fun hs => absurd hs hacc, fun hs => absurd hs.2.1 hacc⟩
    · rw [checkChanges_of_fail hp acc tx sto execAtBlock prunedTo hpass]
      exact ⟨fun hs => absurd hs hpass, fun hs => absurd (hres.mpr hs.1) hpass⟩
  · intro pre b cs post hsplit hpre hb hfail
    subst hsplit
    have hff := rangeLoop_first_fail tx (max execAtBlock prunedTo) b cs post pre
      ⟨pre ++ (b, cs) :: post, sto, [], []⟩ hnd hpre hb hfail
    simp only [List.nil_append] at hff
    obtain ⟨h2, hcalls, hacc, hsto⟩ := hff
    have hnotok : (rangeLoop tx (max execAtBlock prunedTo) (pre ++ (b, cs) :: post)
        ⟨pre ++ (b, cs) :: post, sto, [], []⟩).2 ≠ Res.ok () := by
      rw [h2]; exact hfail
    rw [checkChanges_of_fail hp _ tx sto execAtBlock prunedTo hnotok]
    have hkeysA : ∀ k, k ∈ (rangeLoop tx (max execAtBlock prunedTo) (pre ++ (b, cs) :: post)
        ⟨pre ++ (b, cs) :: post, sto, [], []⟩).1.account.map Prod.fst ↔
        k ∈ (pre ++ (b, cs) :: post).map Prod.fst ∧
          ¬ (max execAtBlock prunedTo < k ∧ k ∈ pre.map Prod.fst) := by
      intro k
      rw [hacc, mapRefresh_keys, mem_kept_keys]
    have hkeysS : ∀ k, k ∈ (rangeLoop tx (max execAtBlock prunedTo) (pre ++ (b, cs) :: post)
        ⟨pre ++ (b, cs) :: post, sto, [], []⟩).1.storage.map Prod.fst ↔
        k ∈ sto.map Prod.fst ∧ ¬ (max execAtBlock prunedTo < k ∧ k ∈ pre.map Prod.fst) := by
      intro k
      rw [hsto, mapRefresh_keys, mem_kept_keys]
    refine ⟨h2, by rw [hcalls]; rfl, ?_, hkeysA, hkeysS⟩
    rw [hkeysA]
    refine ⟨by simp, ?_⟩
    rintro ⟨_, hbpre⟩
    have hnd3 : (pre.map Prod.fst ++ b :: post.map Prod.fst).Nodup := by simpa using hnd
    have hdis := (List.nodup_append.mp hnd3).2.2
    exact hdis hbpre (List.mem_cons_self _ _) 
  · intro hall
    have hpass := hres.mpr hall
    exact checkChanges_of_pass hp acc tx sto execAtBlock prunedTo hpass

/-- Claim C10 as amended, on the run in which the change-set check of block 5
fails with "db has less changets" before block 6 is looked at. -/
theorem checkChanges_verdicts_witness :
    (([(5, (⟨[⟨[1], [2]⟩]⟩ : ChangeSet)), (6, ⟨[]⟩)].map Prod.fst).Nodup ∧ max 0 0 = 0 ∧
      checkChanges sampleHelpers [(5, ⟨[⟨[1], [2]⟩]⟩), (6, ⟨[]⟩)] emptyTx [] 0 0 =
        (⟨[(5, ⟨[⟨[1], [2]⟩]⟩), (6, ⟨[]⟩)], [], [], [Call.changeSet 5]⟩,
          Res.error "db has less changets") ∧
      (checkChangeSet emptyTx 5 ⟨[⟨[1], [2]⟩]⟩ (mapGet [] 5)).res ≠ Res.ok ()) ∧
    ((Res.error "db has less changets" : Res Unit) =
        (checkChangeSet emptyTx 5 ⟨[⟨[1], [2]⟩]⟩ (mapGet [] 5)).res ∧
      [Call.changeSet 5] =
        ((([] : ShadowMap).map Prod.fst).filter fun k => decide (0 < k)).map Call.changeSet ++
          [Call.changeSet 5] ∧
      5 ∈ [(5, (⟨[⟨[1], [2]⟩]⟩ : ChangeSet)), (6, ⟨[]⟩)].map Prod.fst) :=
  ⟨⟨by decide, by decide, by decide, by decide⟩,
    have w := (checkChanges_verdicts sampleHelpers [(5, ⟨[⟨[1], [2]⟩]⟩), (6, ⟨[]⟩)] emptyTx [] 0 0 0
      (⟨[(5, ⟨[⟨[1], [2]⟩]⟩), (6, ⟨[]⟩)], [], [], [Call.changeSet 5]⟩,
        Res.error "db has less changets")
      (by decide) (by decide) (by decide)).2.1 [] 5 ⟨[⟨[1], [2]⟩]⟩ [(6, ⟨[]⟩)] rfl
        (by simp) (by decide) (by decide)
    ⟨w.1, w.2.1, w.2.2.1⟩⟩

end StateStages
